import Mathlib

/-!
# Verification of the Rolotabs reconciliation index

A shallow embedding of the core of the Rolotabs Chrome extension:

* `urlsMatch` from `src/lib/urls.ts` (the destination matcher), and
* the `BookmarkIndex` class from `src/lib/bookmark-index.ts`
  (the reconciliation index), with its public operations.

Modelling conventions:

* JavaScript `Map` is modelled as an association list (`List (κ × α)`):
  `mapGet` is lookup of the first entry with a matching key, `mapSet`
  replaces the value in place when the key is present (JS `Map.set` keeps
  the insertion position) and appends otherwise, `mapDelete` filters the
  key out.  JS `Set` (iterated in insertion order) is modelled as a
  duplicate-free list with append-if-absent insertion.
* Tab ids (JS numbers) are modelled as `Nat`; `null`/`undefined` fields
  become `Option`.  JS string truthiness (`""` is falsy) is modelled
  explicitly wherever the source relies on it.
* The platform WHATWG URL parser (`new URL`) is not repository code; it is
  modelled here for absolute lower-case `http`/`https` URLs of the form
  `scheme://host/path?query#fragment` with a non-empty host, keeping the
  components the code reads (`origin`, `pathname` — defaulting to `"/"`
  when the path is empty, `search` — empty when the query is empty).
  Every other input is a parse failure, matching the `try/catch`
  fall-backs in the source.
* In the TypeScript, the tree nodes stored in `roots` and the records in
  `byId` are the same mutable objects.  Here `byId` stores flat records
  (the fields every mutating operation reads and writes) and `roots`
  stores the annotated tree built at rebuild time; no claim observes the
  tree through a later mutation, so the aliasing is not needed.
-/

namespace Rolotabs

/-! ## The URL model and the destination matcher (`src/lib/urls.ts`) -/

/-- Characters of the scheme marker `https://`. -/
def httpsCL : List Char := ['h', 't', 't', 'p', 's', ':', '/', '/']

/-- Characters of the scheme marker `http://`. -/
def httpCL : List Char := ['h', 't', 't', 'p', ':', '/', '/']

/-- Strip an expected literal start from a character list; `none` when the
list does not start with it. -/
def dropStart : List Char → List Char → Option (List Char)
  | [], l => some l
  | _ :: _, [] => none
  | p :: ps, c :: cs => if p = c then dropStart ps cs else none

/-- The components of a parsed URL that `urlsMatch`/`normalizeUrl` read:
scheme (restricted to the two the model supports), host, raw path and raw
query (without the leading `?`).  The fragment is discarded by every
consumer, so it is not stored. -/
structure URLParts where
  secure : Bool
  host : List Char
  path : List Char
  query : List Char
  deriving Repr, DecidableEq

/-- Characters that terminate the host component. -/
def isHostEnd (c : Char) : Bool := c = '/' || c = '?' || c = '#'

/-- Characters that terminate the path component. -/
def isPathEnd (c : Char) : Bool := c = '?' || c = '#'

/-- The query component: the characters between a leading `?` and the
fragment, if any. -/
def queryOf : List Char → List Char
  | '?' :: r3 => r3.takeWhile (fun c => !(c = '#'))
  | _ => []

/-- Parse `host[/path][?query][#fragment]` after the scheme marker. -/
def parseAfterScheme (secure : Bool) (rest : List Char) : Option URLParts :=
  let host := rest.takeWhile (fun c => !isHostEnd c)
  let r1 := rest.dropWhile (fun c => !isHostEnd c)
  if host = [] then none
  else
    let path := r1.takeWhile (fun c => !isPathEnd c)
    let r2 := r1.dropWhile (fun c => !isPathEnd c)
    some ⟨secure, host, path, queryOf r2⟩

/-- Model of `new URL(·)` restricted as described in the header. -/
def parseChars (l : List Char) : Option URLParts :=
  match dropStart httpsCL l with
  | some rest => parseAfterScheme true rest
  | none =>
    match dropStart httpCL l with
    | some rest => parseAfterScheme false rest
    | none => none

/-- `.replace(/\/+$/, "")`: drop the trailing run of slashes. -/
def stripTrailingSlashes : List Char → List Char
  | [] => []
  | c :: cs =>
    match stripTrailingSlashes cs with
    | [] => if c = '/' then [] else [c]
    | r => c :: r

/-- `u.origin`. -/
def originChars (u : URLParts) : List Char :=
  (if u.secure then httpsCL else httpCL) ++ u.host

/-- `u.pathname`: `"/"` when the raw path is empty. -/
def pathnameChars (u : URLParts) : List Char :=
  if u.path = [] then ['/'] else u.path

/-- `u.search`: empty when the query is empty, otherwise `?query`. -/
def searchChars (u : URLParts) : List Char :=
  if u.query = [] then [] else '?' :: u.query

/-- `u.origin + u.pathname.replace(/\/+$/, "") + u.search` — the
normalisation both `urls.ts` and `BookmarkIndex.normalizeUrl` apply. -/
def normChars (u : URLParts) : List Char :=
  originChars u ++ stripTrailingSlashes (pathnameChars u) ++ searchChars u

/-- String form of `normChars`. -/
def normString (u : URLParts) : String := String.mk (normChars u)

/-- `urlsMatch(url1, url2)` from `src/lib/urls.ts`:
false when either argument is absent or empty (JS falsiness); otherwise
compare normalisations, falling back to raw string equality when either
URL fails to parse (the `catch` branch). -/
def urlsMatch (url1 url2 : Option String) : Bool :=
  match url1, url2 with
  | some s1, some s2 =>
    if s1 = "" || s2 = "" then false
    else
      match parseChars s1.toList, parseChars s2.toList with
      | some a, some b => normString a == normString b
      | _, _ => s1 == s2
  | _, _ => false

/-- `BookmarkIndex.normalizeUrl`: the normalised form, or the raw URL on
parse failure, or `null` for the empty string (`url || null`). -/
def normalizeUrl (url : String) : Option String :=
  match parseChars url.toList with
  | some u => some (normString u)
  | none => if url = "" then none else some url

/-- JS truthiness of an optional string (`undefined`/`null`/`""` ⇒ false). -/
def strTruthy : Option String → Bool
  | none => false
  | some s => !(s == "")

/-! ## Data model (`src/lib/types.ts`) -/

/-- `TabInfo`: a Chrome tab snapshot. -/
structure TabInfo where
  id : Nat
  url : Option String := none
  title : Option String := none
  favIconUrl : Option String := none
  deriving Repr, DecidableEq

/-- `BookmarkNode`: a node of Chrome's bookmark tree. -/
inductive BookmarkNode : Type where
  | mk (id : String) (title : String) (url : Option String)
      (parentId : Option String) (idx : Option Nat)
      (children : Option (List BookmarkNode)) : BookmarkNode
  deriving Repr

def BookmarkNode.id : BookmarkNode → String
  | .mk i _ _ _ _ _ => i

def BookmarkNode.title : BookmarkNode → String
  | .mk _ t _ _ _ _ => t

def BookmarkNode.url : BookmarkNode → Option String
  | .mk _ _ u _ _ _ => u

def BookmarkNode.parentId : BookmarkNode → Option String
  | .mk _ _ _ p _ _ => p

def BookmarkNode.idx : BookmarkNode → Option Nat
  | .mk _ _ _ _ i _ => i

def BookmarkNode.children : BookmarkNode → Option (List BookmarkNode)
  | .mk _ _ _ _ _ c => c

/-- `ManagedBookmark` without its `children` field (see header note on
aliasing): the flat record `byId` stores and the mutating operations
update. -/
structure ManagedBookmark where
  id : String
  title : String
  url : Option String := none
  parentId : Option String := none
  index : Option Nat := none
  isFolder : Bool
  isPinned : Bool
  tabId : Option Nat := none
  isLoaded : Bool
  isActive : Bool
  tabUrl : Option String := none
  favIconUrl : Option String := none
  deriving Repr, DecidableEq

/-- The annotated tree (`ManagedBookmark` with children) kept in `roots`
for rendering. -/
inductive MBTree : Type where
  | mk (bm : ManagedBookmark) (children : Option (List MBTree)) : MBTree
  deriving Repr

def MBTree.bm : MBTree → ManagedBookmark
  | .mk b _ => b

def MBTree.children : MBTree → Option (List MBTree)
  | .mk _ c => c

/-! ## Association-list model of JS `Map` -/

/-- `Map.get`. -/
def mapGet {κ α : Type} [DecidableEq κ] (m : List (κ × α)) (k : κ) : Option α :=
  (m.find? (fun p => p.1 = k)).map (·.2)

/-- `Map.set`: replace in place when the key exists, append otherwise. -/
def mapSet {κ α : Type} [DecidableEq κ] (m : List (κ × α)) (k : κ) (v : α) :
    List (κ × α) :=
  if m.any (fun p => p.1 = k) then
    m.map (fun p => if p.1 = k then (k, v) else p)
  else
    m ++ [(k, v)]

/-- `Map.delete`. -/
def mapDelete {κ α : Type} [DecidableEq κ] (m : List (κ × α)) (k : κ) :
    List (κ × α) :=
  m.filter (fun p => !(p.1 = k))

/-- `Map.has`. -/
def mapHas {κ α : Type} [DecidableEq κ] (m : List (κ × α)) (k : κ) : Bool :=
  m.any (fun p => p.1 = k)

/-! ## The index state and its operations (`src/lib/bookmark-index.ts`) -/

/-- The private fields of `BookmarkIndex`. -/
structure IndexState where
  byId : List (String × ManagedBookmark)
  tabToBookmarkId : List (Nat × String)
  urlToBookmarkIds : List (String × List String)
  pinnedIds : List String
  roots : List MBTree
  rootFolderId : String

/-- Update the record stored at a key, when present (`const bm = get(id);
if (bm) { … }`). -/
def updateBm (m : List (String × ManagedBookmark)) (id : String)
    (f : ManagedBookmark → ManagedBookmark) : List (String × ManagedBookmark) :=
  m.map (fun p => if p.1 = id then (p.1, f p.2) else p)

/-- Insert a bookmark id into the reverse URL index under a normalised
key (creating the `Set` on first use; `Set.add` keeps insertion order and
ignores duplicates). -/
def addToUrlIndex (idx : List (String × List String)) (n : String)
    (id : String) : List (String × List String) :=
  match mapGet idx n with
  | none => mapSet idx n [id]
  | some s => mapSet idx n (if id ∈ s then s else s ++ [id])

/-- Remove a bookmark id from the reverse URL index, dropping the key when
its set becomes empty. -/
def removeFromUrlIndex (idx : List (String × List String)) (n : String)
    (id : String) : List (String × List String) :=
  match mapGet idx n with
  | none => idx
  | some s =>
    let s' := s.erase id
    if s' = [] then mapDelete idx n else mapSet idx n s'

/-- `getTabId(bookmarkId)`: scan the tab map for the first entry whose
value is the bookmark. -/
def getTabId (m : List (Nat × String)) (bookmarkId : String) : Option Nat :=
  (m.find? (fun p => p.2 = bookmarkId)).map (·.1)

/-- The snapshot update `if (tab) { if (tab.favIconUrl) …; if (tab.url) … }`
performed by `associate`. -/
def applySnapshot (bm : ManagedBookmark) (tab : Option TabInfo) :
    ManagedBookmark :=
  match tab with
  | none => bm
  | some t =>
    let bm1 := if strTruthy t.favIconUrl then { bm with favIconUrl := t.favIconUrl } else bm
    if strTruthy t.url then { bm1 with tabUrl := t.url } else bm1

/-- `BookmarkIndex.associate`. -/
def associate (s : IndexState) (bookmarkId : String) (tabId : Nat)
    (tab : Option TabInfo) : IndexState :=
  -- Break any existing association for this tab
  let s1 :=
    match mapGet s.tabToBookmarkId tabId with
    | some oldBookmarkId =>
      if oldBookmarkId ≠ bookmarkId then
        { s with byId := updateBm s.byId oldBookmarkId (fun bm =>
            { bm with tabId := none, isLoaded := false, isActive := false,
                      tabUrl := none, favIconUrl := none }) }
      else s
    | none => s
  -- Break any existing association for this bookmark
  let s2 :=
    match getTabId s1.tabToBookmarkId bookmarkId with
    | some oldTabId =>
      { s1 with tabToBookmarkId := mapDelete s1.tabToBookmarkId oldTabId }
    | none => s1
  let s3 := { s2 with tabToBookmarkId := mapSet s2.tabToBookmarkId tabId bookmarkId }
  { s3 with byId := updateBm s3.byId bookmarkId (fun bm =>
      applySnapshot { bm with tabId := some tabId, isLoaded := true } tab) }

/-- `BookmarkIndex.dissociate`. -/
def dissociate (s : IndexState) (bookmarkId : String) : IndexState :=
  let s1 :=
    match getTabId s.tabToBookmarkId bookmarkId with
    | some tabId => { s with tabToBookmarkId := mapDelete s.tabToBookmarkId tabId }
    | none => s
  { s1 with byId := updateBm s1.byId bookmarkId (fun bm =>
      { bm with tabId := none, isLoaded := false, isActive := false,
                tabUrl := none, favIconUrl := none }) }

/-- `BookmarkIndex.dissociateTab`. -/
def dissociateTab (s : IndexState) (tabId : Nat) : IndexState :=
  match mapGet s.tabToBookmarkId tabId with
  | some bookmarkId => dissociate s bookmarkId
  | none => s

/-- The candidate scan inside `tryAssociateByUrl`: first id whose record
exists and is not loaded gets associated. -/
def tryCandidates (s : IndexState) (tabId : Nat) (tab : Option TabInfo) :
    List String → IndexState × Option String
  | [] => (s, none)
  | bmId :: rest =>
    match mapGet s.byId bmId with
    | some bm =>
      if bm.isLoaded then tryCandidates s tabId tab rest
      else (associate s bmId tabId tab, some bmId)
    | none => tryCandidates s tabId tab rest

/-- `BookmarkIndex.tryAssociateByUrl` (state and returned id). -/
def tryAssociateByUrl (s : IndexState) (tabId : Nat) (url : String)
    (tab : Option TabInfo) : IndexState × Option String :=
  match normalizeUrl url with
  | none => (s, none)
  | some n =>
    if n = "" then (s, none)
    else
      match mapGet s.urlToBookmarkIds n with
      | none => (s, none)
      | some candidates => tryCandidates s tabId tab candidates

/-- `BookmarkIndex.pin`. -/
def pin (s : IndexState) (bookmarkId : String) : IndexState :=
  if bookmarkId ∈ s.pinnedIds then s
  else
    { s with pinnedIds := s.pinnedIds ++ [bookmarkId],
             byId := updateBm s.byId bookmarkId (fun bm => { bm with isPinned := true }) }

/-- `BookmarkIndex.unpin` (`indexOf`/`splice`: remove the first
occurrence, when present). -/
def unpin (s : IndexState) (bookmarkId : String) : IndexState :=
  if bookmarkId ∈ s.pinnedIds then
    { s with pinnedIds := s.pinnedIds.erase bookmarkId,
             byId := updateBm s.byId bookmarkId (fun bm => { bm with isPinned := false }) }
  else s

/-- `BookmarkIndex.reorderPinned`: remove, clamp the index, re-insert.
`toIndex` is an `Int` because the JS caller may pass any number. -/
def reorderPinned (s : IndexState) (bookmarkId : String) (toIndex : Int) :
    IndexState :=
  if bookmarkId ∈ s.pinnedIds then
    let removed := s.pinnedIds.erase bookmarkId
    let clamped := (max 0 (min toIndex (removed.length : Int))).toNat
    { s with pinnedIds := removed.take clamped ++ bookmarkId :: removed.drop clamped }
  else s

/-- `BookmarkIndex.cleanupPinned`: drop pinned ids missing from `byId`,
re-derive every record's `isPinned` flag, report whether anything was
dropped. -/
def cleanupPinned (s : IndexState) : IndexState × Bool :=
  let before := s.pinnedIds.length
  let newPinned := s.pinnedIds.filter (fun id => (mapGet s.byId id).isSome)
  let byId' := s.byId.map (fun p => (p.1, { p.2 with isPinned := p.2.id ∈ newPinned }))
  ({ s with pinnedIds := newPinned, byId := byId' }, !(newPinned.length = before))

/-- `BookmarkIndex.setActiveTab`. -/
def setActiveTab (s : IndexState) (tabId : Option Nat) : IndexState :=
  let byId1 := s.byId.map (fun p => (p.1, { p.2 with isActive := false }))
  match tabId with
  | none => { s with byId := byId1 }
  | some t =>
    match mapGet s.tabToBookmarkId t with
    | some bookmarkId =>
      { s with byId := updateBm byId1 bookmarkId (fun bm => { bm with isActive := true }) }
    | none => { s with byId := byId1 }

/-- `BookmarkIndex.handleTabNavigation`. -/
def handleTabNavigation (s : IndexState) (tabId : Nat) (newUrl : String)
    (tab : Option TabInfo) : IndexState :=
  match mapGet s.tabToBookmarkId tabId with
  | some currentBookmarkId =>
    -- Temporarily dissociate to let tryAssociateByUrl find a new match
    let s1 := { s with tabToBookmarkId := mapDelete s.tabToBookmarkId tabId }
    let s2 := { s1 with byId := updateBm s1.byId currentBookmarkId (fun bm =>
        { bm with tabId := none, isLoaded := false }) }
    let r := tryAssociateByUrl s2 tabId newUrl tab
    match r.2 with
    | some _ => r.1
    | none =>
      -- No other bookmark matched — restore the original association
      let s4 := { r.1 with tabToBookmarkId := mapSet r.1.tabToBookmarkId tabId currentBookmarkId }
      { s4 with byId := updateBm s4.byId currentBookmarkId (fun bm =>
          let bm1 := { bm with tabId := some tabId, isLoaded := true, tabUrl := some newUrl }
          match tab with
          | some t => if strTruthy t.favIconUrl then { bm1 with favIconUrl := t.favIconUrl } else bm1
          | none => bm1) }
  | none => (tryAssociateByUrl s tabId newUrl tab).1

/-- `BookmarkIndex.addBookmark`. -/
def addBookmark (s : IndexState) (node : BookmarkNode) (tabs : List TabInfo) :
    IndexState :=
  let bm : ManagedBookmark :=
    { id := node.id, title := node.title, url := node.url,
      parentId := node.parentId, index := node.idx,
      isFolder := !strTruthy node.url,
      isPinned := node.id ∈ s.pinnedIds,
      tabId := none, isLoaded := false, isActive := false }
  let s1 := { s with byId := mapSet s.byId node.id bm }
  if strTruthy node.url then
    let s2 :=
      match normalizeUrl (node.url.getD "") with
      | some n =>
        if n = "" then s1
        else { s1 with urlToBookmarkIds := addToUrlIndex s1.urlToBookmarkIds n node.id }
      | none => s1
    match tabs.find? (fun t => urlsMatch t.url node.url && !mapHas s2.tabToBookmarkId t.id) with
    | some matchingTab => associate s2 node.id matchingTab.id (some matchingTab)
    | none => s2
  else s1

/-- `BookmarkIndex.removeBookmark`. -/
def removeBookmark (s : IndexState) (bookmarkId : String) : IndexState :=
  match mapGet s.byId bookmarkId with
  | none => s
  | some bm =>
    let s1 :=
      match bm.tabId with
      | some t => { s with tabToBookmarkId := mapDelete s.tabToBookmarkId t }
      | none => s
    let s2 :=
      if strTruthy bm.url then
        match normalizeUrl (bm.url.getD "") with
        | some n =>
          if n = "" then s1
          else { s1 with urlToBookmarkIds := removeFromUrlIndex s1.urlToBookmarkIds n bookmarkId }
        | none => s1
      else s1
    let s3 := unpin s2 bookmarkId
    { s3 with byId := mapDelete s3.byId bookmarkId }

/-- `BookmarkIndex.updateBookmarkUrl`. -/
def updateBookmarkUrl (s : IndexState) (bookmarkId : String) (newUrl : String)
    (tabs : List TabInfo) : IndexState :=
  match mapGet s.byId bookmarkId with
  | none => s
  | some bm =>
    -- Remove old URL from index
    let s1 :=
      if strTruthy bm.url then
        match normalizeUrl (bm.url.getD "") with
        | some n =>
          if n = "" then s
          else { s with urlToBookmarkIds := removeFromUrlIndex s.urlToBookmarkIds n bookmarkId }
        | none => s
      else s
    -- Break old association
    let s2 :=
      match bm.tabId with
      | some t =>
        { s1 with tabToBookmarkId := mapDelete s1.tabToBookmarkId t,
                  byId := updateBm s1.byId bookmarkId (fun b =>
                    { b with tabId := none, isLoaded := false,
                             tabUrl := none, favIconUrl := none }) }
      | none => s1
    -- Update URL
    let s3 := { s2 with byId := updateBm s2.byId bookmarkId (fun b => { b with url := some newUrl }) }
    -- Add new URL to index
    let s4 :=
      match normalizeUrl newUrl with
      | some n =>
        if n = "" then s3
        else { s3 with urlToBookmarkIds := addToUrlIndex s3.urlToBookmarkIds n bookmarkId }
      | none => s3
    -- Try to associate with an open tab
    match tabs.find? (fun t => urlsMatch t.url (some newUrl) && !mapHas s4.tabToBookmarkId t.id) with
    | some matchingTab => associate s4 bookmarkId matchingTab.id (some matchingTab)
    | none => s4

/-! ## Rebuild -/

mutual

/-- The `flatten` closure of `rebuild`: collect `(id, url)` of every node
with a truthy `url`, in tree order. -/
def flattenNode (n : BookmarkNode) : List (String × String) :=
  match n with
  | .mk i _ u _ _ cs =>
    (match u with
     | some v => if v ≠ "" then [(i, v)] else []
     | none => []) ++
    (match cs with
     | none => []
     | some l => flattenList l)

def flattenList (l : List BookmarkNode) : List (String × String) :=
  match l with
  | [] => []
  | n :: ns => flattenNode n ++ flattenList ns

end

/-- `tree.forEach((root) => root.children?.forEach(flatten))`: the roots
themselves are not flattened, only their children. -/
def flatForest (tree : List BookmarkNode) : List (String × String) :=
  tree.flatMap (fun root =>
    match root.children with
    | none => []
    | some cs => flattenList cs)

/-- Build the reverse URL index over the flat bookmark list. -/
def buildUrlIndex : List (String × String) →
    List (String × List String) → List (String × List String)
  | [], idx => idx
  | (bid, burl) :: rest, idx =>
    if burl ≠ "" then
      match normalizeUrl burl with
      | some n =>
        if n = "" then buildUrlIndex rest idx
        else buildUrlIndex rest (addToUrlIndex idx n bid)
      | none => buildUrlIndex rest idx
    else buildUrlIndex rest idx

/-- The greedy matching loop of `rebuild`: for each flat bookmark in tree
order, consume the first not-yet-used tab whose URL matches.  Returns the
used-tab set and the tab→bookmark map. -/
def matchLoop (tabs : List TabInfo) :
    List (String × String) → List Nat → List (Nat × String) →
    List Nat × List (Nat × String)
  | [], used, acc => (used, acc)
  | (bid, burl) :: rest, used, acc =>
    if burl = "" then matchLoop tabs rest used acc
    else
      match tabs.find? (fun t => urlsMatch t.url (some burl) && !used.contains t.id) with
      | some t => matchLoop tabs rest (used ++ [t.id]) (mapSet acc t.id bid)
      | none => matchLoop tabs rest used acc

mutual

/-- The `annotate` closure of `rebuild`: enrich a node, recursing into the
children first (they are inserted into `byId` before their parent, as in
the source). -/
def annotateNode (pinnedSet : List String) (bkToTab : List (String × Nat))
    (tabById : List (Nat × TabInfo)) (node : BookmarkNode)
    (byId : List (String × ManagedBookmark)) :
    List (String × ManagedBookmark) × MBTree :=
  match node with
  | .mk i t u p ix cs =>
    let associatedTabId := mapGet bkToTab i
    let tab := match associatedTabId with
      | some tid => mapGet tabById tid
      | none => none
    let managed : ManagedBookmark :=
      { id := i, title := t, url := u, parentId := p, index := ix,
        isFolder := !strTruthy u,
        isPinned := i ∈ pinnedSet,
        tabId := associatedTabId,
        isLoaded := associatedTabId.isSome,
        isActive := false }
    let managed :=
      match tab with
      | some tb =>
        let m1 := if strTruthy tb.favIconUrl then { managed with favIconUrl := tb.favIconUrl } else managed
        if strTruthy tb.url then { m1 with tabUrl := tb.url } else m1
      | none => managed
    match cs with
    | none => (mapSet byId i managed, .mk managed none)
    | some l =>
      let r := annotateList pinnedSet bkToTab tabById l byId
      (mapSet r.1 i managed, .mk managed (some r.2))

def annotateList (pinnedSet : List String) (bkToTab : List (String × Nat))
    (tabById : List (Nat × TabInfo)) (l : List BookmarkNode)
    (byId : List (String × ManagedBookmark)) :
    List (String × ManagedBookmark) × List MBTree :=
  match l with
  | [] => (byId, [])
  | n :: ns =>
    let r1 := annotateNode pinnedSet bkToTab tabById n byId
    let r2 := annotateList pinnedSet bkToTab tabById ns r1.1
    (r2.1, r1.2 :: r2.2)

end

/-- `BookmarkIndex.rebuild`: discard all in-memory state and recompute it
from the arguments. -/
def rebuild (_s : IndexState) (tree : List BookmarkNode) (tabs : List TabInfo)
    (pinnedIds : List String) (rootFolderId : String) : IndexState :=
  let flatBookmarks := flatForest tree
  let urlIdx := buildUrlIndex flatBookmarks []
  let tabById := tabs.foldl (fun m t => mapSet m t.id t) []
  let tabToBookmarkId := (matchLoop tabs flatBookmarks [] []).2
  let bookmarkIdToTabId :=
    tabToBookmarkId.foldl (fun m p => mapSet m p.2 p.1) []
  let ar := annotateList pinnedIds bookmarkIdToTabId tabById tree []
  { byId := ar.1,
    tabToBookmarkId := tabToBookmarkId,
    urlToBookmarkIds := urlIdx,
    pinnedIds := pinnedIds,
    roots := ar.2,
    rootFolderId := rootFolderId }

/-! ## State projection (`getState`) -/

/-- An entry of zone 3 of the panel. -/
structure OpenTab where
  tabId : Nat
  title : Option String := none
  url : Option String := none
  favIconUrl : Option String := none
  isActive : Bool
  deriving Repr, DecidableEq

/-- The projected view returned by `getState`. -/
structure PanelState where
  pinned : List ManagedBookmark
  bookmarks : List MBTree
  openTabs : List OpenTab
  activeTabId : Option Nat
  pinnedIds : List String
  rootFolderId : String

/-- The `filterPinned` closure of `getState`: drop pinned non-folders,
recursing into the children of kept nodes. -/
def filterPinnedList (pinnedSet : List String) : List MBTree → List MBTree
  | [] => []
  | .mk bm cs :: ns =>
    if bm.id ∈ pinnedSet && !bm.isFolder then filterPinnedList pinnedSet ns
    else
      (match cs with
       | none => MBTree.mk bm none
       | some cl => MBTree.mk bm (some (filterPinnedList pinnedSet cl))) ::
      filterPinnedList pinnedSet ns

/-- `BookmarkIndex.getState`: updates the `isActive` flags (its one
sanctioned mutation) and projects the three zones. -/
def getState (s : IndexState) (activeTabId : Option Nat)
    (allTabs : List TabInfo) : IndexState × PanelState :=
  let s' := setActiveTab s activeTabId
  let pinned := s'.pinnedIds.filterMap (fun id => mapGet s'.byId id)
  let bookmarks :=
    match s'.roots.find? (fun r => r.bm.id = s'.rootFolderId) with
    | some (.mk bm cs) =>
      [MBTree.mk bm (match cs with
        | none => none
        | some cl => some (filterPinnedList s'.pinnedIds cl))]
    | none => []
  let openTabs :=
    ((allTabs.filter (fun t => !mapHas s'.tabToBookmarkId t.id)).filter (fun t =>
        !(match t.url with | some u => u.startsWith "chrome://" | none => false))).filter
      (fun t => !(match t.url with | some u => u.startsWith "chrome-extension://" | none => false))
      |>.map (fun t =>
        { tabId := t.id, title := t.title, url := t.url, favIconUrl := t.favIconUrl,
          isActive := activeTabId = some t.id })
  (s', { pinned := pinned, bookmarks := bookmarks, openTabs := openTabs,
         activeTabId := activeTabId, pinnedIds := s'.pinnedIds,
         rootFolderId := s'.rootFolderId })

/-! ## Public operations as a command type (for reachability claims) -/

/-- One public operation of `BookmarkIndex` (the post-rebuild mutations the
bijection claim quantifies over). -/
inductive IndexOp : Type where
  | associate (bookmarkId : String) (tabId : Nat) (tab : Option TabInfo)
  | dissociate (bookmarkId : String)
  | dissociateTab (tabId : Nat)
  | tryAssociateByUrl (tabId : Nat) (url : String) (tab : Option TabInfo)
  | handleTabNavigation (tabId : Nat) (newUrl : String) (tab : Option TabInfo)
  | addBookmark (node : BookmarkNode) (tabs : List TabInfo)
  | removeBookmark (bookmarkId : String)
  | updateBookmarkUrl (bookmarkId : String) (newUrl : String) (tabs : List TabInfo)
  | pin (bookmarkId : String)
  | unpin (bookmarkId : String)
  | reorderPinned (bookmarkId : String) (toIndex : Int)
  | cleanupPinned
  | getState (activeTabId : Option Nat) (allTabs : List TabInfo)

/-- Apply one public operation to the state. -/
def applyOp (s : IndexState) : IndexOp → IndexState
  | .associate b t tab => associate s b t tab
  | .dissociate b => dissociate s b
  | .dissociateTab t => dissociateTab s t
  | .tryAssociateByUrl t url tab => (tryAssociateByUrl s t url tab).1
  | .handleTabNavigation t url tab => handleTabNavigation s t url tab
  | .addBookmark node tabs => addBookmark s node tabs
  | .removeBookmark b => removeBookmark s b
  | .updateBookmarkUrl b url tabs => updateBookmarkUrl s b url tabs
  | .pin b => pin s b
  | .unpin b => unpin s b
  | .reorderPinned b i => reorderPinned s b i
  | .cleanupPinned => (cleanupPinned s).1
  | .getState a tabs => (getState s a tabs).1

/-- Apply a sequence of public operations. -/
def applyOps (s : IndexState) (ops : List IndexOp) : IndexState :=
  ops.foldl applyOp s

end Rolotabs

namespace Rolotabs

/-! ## Lemmas about the `Map` model -/

section MapLemmas

variable {κ α : Type} [DecidableEq κ]

theorem forall_key_ne_of_any_false {m : List (κ × α)} {k : κ}
    (h : (m.any fun p => p.1 = k) = false) : ∀ p ∈ m, p.1 ≠ k := by
  intro p hp hk
  have : (m.any fun p => p.1 = k) = true :=
    List.any_eq_true.mpr ⟨p, hp, by simpa using hk⟩
  rw [h] at this
  cases this

theorem mapGet_nil {k : κ} : mapGet ([] : List (κ × α)) k = none := rfl

theorem mapGet_cons {q : κ × α} {m : List (κ × α)} {k : κ} :
    mapGet (q :: m) k = if q.1 = k then some q.2 else mapGet m k := by
  by_cases hq : q.1 = k
  · rw [if_pos hq]
    unfold mapGet
    rw [List.find?_cons_of_pos _ (by simpa using hq)]
    rfl
  · rw [if_neg hq]
    unfold mapGet
    rw [List.find?_cons_of_neg _ (by simpa using hq)]

theorem mapGet_append {m m' : List (κ × α)} {k : κ} :
    mapGet (m ++ m') k = ((mapGet m k).map some).getD (mapGet m' k) := by
  induction m with
  | nil => simp [mapGet_nil]
  | cons q m ih =>
    by_cases hq : q.1 = k <;> simp [mapGet_cons, hq, ih]

theorem mapSet_eq_of_any_true {m : List (κ × α)} {k : κ} {v : α}
    (hc : (m.any fun p => p.1 = k) = true) :
    mapSet m k v = m.map (fun p => if p.1 = k then (k, v) else p) := by
  simp [mapSet, hc]

theorem mapSet_eq_of_any_false {m : List (κ × α)} {k : κ} {v : α}
    (hc : (m.any fun p => p.1 = k) = false) :
    mapSet m k v = m ++ [(k, v)] := by
  simp [mapSet, hc]

theorem mem_mapSet {m : List (κ × α)} {k : κ} {v : α} {x : κ × α} :
    x ∈ mapSet m k v ↔ (x = (k, v) ∨ (x ∈ m ∧ x.1 ≠ k)) := by
  cases hc : (m.any fun p => p.1 = k) with
  | true =>
    rw [mapSet_eq_of_any_true hc]
    simp only [List.mem_map]
    constructor
    · rintro ⟨p, hp, rfl⟩
      by_cases h : p.1 = k
      · simp [h]
      · simp [h, hp]
    · rintro (rfl | ⟨hx, hne⟩)
      · rcases List.any_eq_true.mp hc with ⟨p, hp, hpk⟩
        exact ⟨p, hp, by simp [of_decide_eq_true hpk]⟩
      · exact ⟨x, hx, by simp [hne]⟩
  | false =>
    rw [mapSet_eq_of_any_false hc]
    simp only [List.mem_append, List.mem_singleton]
    constructor
    · rintro (hx | rfl)
      · exact Or.inr ⟨hx, forall_key_ne_of_any_false hc x hx⟩
      · exact Or.inl rfl
    · rintro (rfl | ⟨hx, _⟩)
      · exact Or.inr rfl
      · exact Or.inl hx

theorem keys_mapSet_nodup {m : List (κ × α)} {k : κ} {v : α}
    (h : (m.map Prod.fst).Nodup) : ((mapSet m k v).map Prod.fst).Nodup := by
  cases hc : (m.any fun p => p.1 = k) with
  | true =>
    rw [mapSet_eq_of_any_true hc]
    have : (m.map (fun p => if p.1 = k then (k, v) else p)).map Prod.fst
        = m.map Prod.fst := by
      rw [List.map_map]
      refine List.map_congr_left ?_
      intro p _
      by_cases hp : p.1 = k <;> simp [hp]
    rw [this]; exact h
  | false =>
    rw [mapSet_eq_of_any_false hc]
    have hk : k ∉ m.map Prod.fst := by
      intro hmem
      rcases List.mem_map.mp hmem with ⟨p, hp, hpk⟩
      exact forall_key_ne_of_any_false hc p hp hpk
    simp [List.nodup_append, h, hk, List.disjoint_singleton]

theorem mapGet_mapRepl_of_exists {m : List (κ × α)} {k : κ} {v : α}
    (h : ∃ p ∈ m, p.1 = k) :
    mapGet (m.map (fun p => if p.1 = k then (k, v) else p)) k = some v := by
  induction m with
  | nil => simp at h
  | cons q m ih =>
    by_cases hq : q.1 = k
    · simp [mapGet_cons, hq]
    · rcases h with ⟨p, hp, hpk⟩
      rcases List.mem_cons.mp hp with rfl | hp'
      · exact absurd hpk hq
      · simp only [List.map_cons, if_neg hq]
        rw [mapGet_cons, if_neg hq]
        exact ih ⟨p, hp', hpk⟩

theorem mapGet_mapSet_self {m : List (κ × α)} {k : κ} {v : α} :
    mapGet (mapSet m k v) k = some v := by
  cases hc : (m.any fun p => p.1 = k) with
  | true =>
    rw [mapSet_eq_of_any_true hc]
    rcases List.any_eq_true.mp hc with ⟨p, hp, hpk⟩
    exact mapGet_mapRepl_of_exists ⟨p, hp, of_decide_eq_true hpk⟩
  | false =>
    rw [mapSet_eq_of_any_false hc, mapGet_append]
    have : mapGet m k = none := by
      rw [mapGet, List.find?_eq_none.mpr]
      · rfl
      · intro p hp
        simpa using forall_key_ne_of_any_false hc p hp
    simp [this, mapGet_cons]

theorem mapGet_mapSet_ne {m : List (κ × α)} {k k' : κ} {v : α} (h : k' ≠ k) :
    mapGet (mapSet m k v) k' = mapGet m k' := by
  cases hc : (m.any fun p => p.1 = k) with
  | true =>
    rw [mapSet_eq_of_any_true hc]
    clear hc
    induction m with
    | nil => simp
    | cons q m ih =>
      by_cases hq : q.1 = k
      · have h1 : ¬((k, v).1 = k') := fun hk => h (by simpa using hk.symm)
        have h2 : ¬(q.1 = k') := fun hk => h (hq ▸ hk).symm
        simp only [List.map_cons, if_pos hq]
        rw [mapGet_cons, if_neg h1, mapGet_cons, if_neg h2, ih]
      · simp only [List.map_cons, if_neg hq]
        rw [mapGet_cons, mapGet_cons, ih]
  | false =>
    rw [mapSet_eq_of_any_false hc, mapGet_append]
    have : mapGet [(k, v)] k' = none := by
      rw [mapGet_cons, if_neg (fun hk => h hk.symm)]
      rfl
    rw [this]
    cases hm : mapGet m k' <;> simp

theorem mapDelete_nil {k : κ} : mapDelete ([] : List (κ × α)) k = [] := rfl

theorem mapDelete_cons {q : κ × α} {m : List (κ × α)} {k : κ} :
    mapDelete (q :: m) k =
      if q.1 = k then mapDelete m k else q :: mapDelete m k := by
  by_cases hq : q.1 = k <;> simp [mapDelete, List.filter, hq]

theorem mem_mapDelete {m : List (κ × α)} {k : κ} {x : κ × α} :
    x ∈ mapDelete m k ↔ x ∈ m ∧ x.1 ≠ k := by
  unfold mapDelete
  simp [List.mem_filter]

theorem mapDelete_sublist (m : List (κ × α)) (k : κ) :
    List.Sublist (mapDelete m k) m :=
  List.filter_sublist m

theorem keys_mapDelete_nodup {m : List (κ × α)} {k : κ}
    (h : (m.map Prod.fst).Nodup) : ((mapDelete m k).map Prod.fst).Nodup :=
  h.sublist ((mapDelete_sublist m k).map Prod.fst)

theorem mapGet_mapDelete_self {m : List (κ × α)} {k : κ} :
    mapGet (mapDelete m k) k = none := by
  rw [mapGet, List.find?_eq_none.mpr]
  · rfl
  · intro p hp
    simpa using (mem_mapDelete.mp hp).2

theorem mapGet_mapDelete_ne {m : List (κ × α)} {k k' : κ} (h : k' ≠ k) :
    mapGet (mapDelete m k) k' = mapGet m k' := by
  induction m with
  | nil => simp [mapDelete_nil]
  | cons q m ih =>
    rw [mapDelete_cons]
    by_cases hq : q.1 = k
    · have h2 : ¬(q.1 = k') := fun hk => h (hq ▸ hk).symm
      rw [if_pos hq, ih, mapGet_cons, if_neg h2]
    · by_cases hq' : q.1 = k'
      · rw [if_neg hq, mapGet_cons, if_pos hq', mapGet_cons, if_pos hq']
      · rw [if_neg hq, mapGet_cons, if_neg hq', mapGet_cons, if_neg hq', ih]

theorem mapGet_eq_some_mem {m : List (κ × α)} {k : κ} {v : α}
    (h : mapGet m k = some v) : (k, v) ∈ m := by
  induction m with
  | nil => simp [mapGet_nil] at h
  | cons q m ih =>
    rw [mapGet_cons] at h
    by_cases hq : q.1 = k
    · rw [if_pos hq] at h
      rcases q with ⟨k0, v0⟩
      simp only at hq h
      rw [← hq, ← Option.some.inj h]
      exact List.mem_cons_self _ _
    · rw [if_neg hq] at h
      exact List.mem_cons_of_mem _ (ih h)

theorem mapGet_eq_none {m : List (κ × α)} {k : κ} :
    mapGet m k = none ↔ ∀ p ∈ m, p.1 ≠ k := by
  induction m with
  | nil => simp [mapGet_nil]
  | cons q m ih =>
    rw [mapGet_cons]
    by_cases hq : q.1 = k
    · simp [if_pos hq, hq]
    · simp only [if_neg hq, ih, List.mem_cons]
      constructor
      · rintro h p (rfl | hp)
        · exact hq
        · exact h p hp
      · intro h p hp
        exact h p (Or.inr hp)

theorem mapGet_of_mem_keysNodup {m : List (κ × α)} {k : κ} {v : α}
    (hnd : (m.map Prod.fst).Nodup) (h : (k, v) ∈ m) : mapGet m k = some v := by
  induction m with
  | nil => cases h
  | cons q m ih =>
    rw [List.map_cons, List.nodup_cons] at hnd
    rcases List.mem_cons.mp h with rfl | h'
    · rw [mapGet_cons, if_pos rfl]
    · have hq : q.1 ≠ k := by
        intro hk
        exact hnd.1 (hk ▸ List.mem_map.mpr ⟨(k, v), h', rfl⟩)
      rw [mapGet_cons, if_neg hq]
      exact ih hnd.2 h'

end MapLemmas

theorem mapGet_mapVal {κ α : Type} [DecidableEq κ] (m : List (κ × α))
    (g : κ → α → α) (k : κ) :
    mapGet (m.map (fun p => (p.1, g p.1 p.2))) k = (mapGet m k).map (g k) := by
  induction m with
  | nil => simp [mapGet_nil]
  | cons q m ih =>
    by_cases hq : q.1 = k
    · subst hq
      simp [List.map_cons, mapGet_cons]
    · simp [List.map_cons, mapGet_cons, hq, ih]

theorem updateBm_nil {id : String} {f : ManagedBookmark → ManagedBookmark} :
    updateBm [] id f = [] := rfl

theorem updateBm_cons {q : String × ManagedBookmark}
    {m : List (String × ManagedBookmark)} {id : String}
    {f : ManagedBookmark → ManagedBookmark} :
    updateBm (q :: m) id f =
      (if q.1 = id then (q.1, f q.2) else q) :: updateBm m id f := by
  by_cases hq : q.1 = id <;> simp [updateBm, hq]

theorem mapGet_updateBm_self (m : List (String × ManagedBookmark)) (id : String)
    (f : ManagedBookmark → ManagedBookmark) :
    mapGet (updateBm m id f) id = (mapGet m id).map f := by
  induction m with
  | nil => simp [updateBm_nil, mapGet_nil]
  | cons q m ih =>
    rw [updateBm_cons]
    by_cases hq : q.1 = id
    · rw [if_pos hq, mapGet_cons, mapGet_cons]
      simp [hq]
    · rw [if_neg hq, mapGet_cons, mapGet_cons, if_neg hq, if_neg hq, ih]

theorem mapGet_updateBm_ne (m : List (String × ManagedBookmark)) (id id' : String)
    (f : ManagedBookmark → ManagedBookmark) (h : id' ≠ id) :
    mapGet (updateBm m id f) id' = mapGet m id' := by
  induction m with
  | nil => simp [updateBm_nil]
  | cons q m ih =>
    rw [updateBm_cons]
    by_cases hq : q.1 = id
    · have h2 : ¬(q.1 = id') := fun hk => h (hq ▸ hk).symm
      rw [if_pos hq, mapGet_cons, mapGet_cons, if_neg h2, ih]
      simp only [if_neg (by simpa using h2 : ¬((q.1, f q.2).1 = id'))]
    · rw [if_neg hq, mapGet_cons, mapGet_cons, ih]

theorem getTabId_eq_some_mem {m : List (Nat × String)} {b : String} {t : Nat}
    (h : getTabId m b = some t) : (t, b) ∈ m := by
  unfold getTabId at h
  cases hf : m.find? (fun p => p.2 = b) with
  | none => simp [hf] at h
  | some p =>
    have hp := List.find?_some hf
    have hmem := List.mem_of_find?_eq_some hf
    rcases p with ⟨t0, b0⟩
    simp only [hf, Option.map_some'] at h
    have hb : b0 = b := of_decide_eq_true hp
    rw [← Option.some.inj h, ← hb]
    exact hmem

theorem getTabId_eq_none {m : List (Nat × String)} {b : String} :
    getTabId m b = none ↔ ∀ p ∈ m, p.2 ≠ b := by
  unfold getTabId
  constructor
  · intro h p hp
    cases hf : m.find? (fun p => p.2 = b) with
    | none =>
      simpa using List.find?_eq_none.mp hf p hp
    | some q => simp [hf] at h
  · intro h
    rw [List.find?_eq_none.mpr]
    · rfl
    · intro p hp
      simpa using h p hp

end Rolotabs

namespace Rolotabs

/-! ## Claim-support definitions -/

/-- The state of a freshly constructed `BookmarkIndex`. -/
def emptyIndex : IndexState :=
  { byId := [], tabToBookmarkId := [], urlToBookmarkIds := [],
    pinnedIds := [], roots := [], rootFolderId := "" }

/-- The candidate list `tryAssociateByUrl` iterates for a URL: the stored
set under the normalised key, in its insertion order. -/
def candidatesOf (s : IndexState) (url : String) : List String :=
  match normalizeUrl url with
  | none => []
  | some n => if n = "" then [] else (mapGet s.urlToBookmarkIds n).getD []

/-- The loop test of `tryAssociateByUrl`: the record exists and is not
loaded (`bm && !bm.isLoaded`). -/
def isFreeCandidate (s : IndexState) (id : String) : Bool :=
  match mapGet s.byId id with
  | some bm => !bm.isLoaded
  | none => false

/-- Lockstep of the `isPinned` flags with the pinned order. -/
def PinConsistent (s : IndexState) : Prop :=
  ∀ id bm, mapGet s.byId id = some bm → (bm.isPinned = true ↔ id ∈ s.pinnedIds)

/-! ## Characterisation of `tryAssociateByUrl` -/

theorem tryCandidates_eq (s : IndexState) (tabId : Nat) (tab : Option TabInfo)
    (cands : List String) :
    tryCandidates s tabId tab cands =
      match cands.find? (isFreeCandidate s) with
      | some c => (associate s c tabId tab, some c)
      | none => (s, none) := by
  induction cands with
  | nil => rfl
  | cons c rest ih =>
    show (match mapGet s.byId c with
      | some bm =>
        if bm.isLoaded then tryCandidates s tabId tab rest
        else (associate s c tabId tab, some c)
      | none => tryCandidates s tabId tab rest) = _
    cases hbm : mapGet s.byId c with
    | some bm =>
      cases hl : bm.isLoaded with
      | true =>
        have hfree : isFreeCandidate s c = false := by
          simp [isFreeCandidate, hbm, hl]
        simp only [List.find?_cons_of_neg _ (by simp [hfree] : ¬isFreeCandidate s c = true)]
        simpa [hl] using ih
      | false =>
        have hfree : isFreeCandidate s c = true := by
          simp [isFreeCandidate, hbm, hl]
        simp only [List.find?_cons_of_pos _ hfree]
        simp [hl]
    | none =>
      have hfree : isFreeCandidate s c = false := by
        simp [isFreeCandidate, hbm]
      simp only [List.find?_cons_of_neg _ (by simp [hfree] : ¬isFreeCandidate s c = true)]
      exact ih

theorem tryAssociateByUrl_eq (s : IndexState) (tabId : Nat) (url : String)
    (tab : Option TabInfo) :
    tryAssociateByUrl s tabId url tab =
      match (candidatesOf s url).find? (isFreeCandidate s) with
      | some c => (associate s c tabId tab, some c)
      | none => (s, none) := by
  unfold tryAssociateByUrl candidatesOf
  cases hn : normalizeUrl url with
  | none => rfl
  | some n =>
    by_cases hne : n = ""
    · simp [hne]
    · simp only [if_neg hne]
      cases hc : mapGet s.urlToBookmarkIds n with
      | none => rfl
      | some cands => simpa using tryCandidates_eq s tabId tab cands

/-! ## Claim C5 — rebuild idempotence -/

/-- C5: `rebuild(T, L, P, R)` discards all prior state, so its post-state
depends only on its arguments; in particular calling it twice in
succession yields exactly the same entity store, association maps, URL
index, roots and pinned order as calling it once. -/
theorem rebuild_idempotent (s s' : IndexState) (tree : List BookmarkNode)
    (tabs : List TabInfo) (pinnedIds : List String) (rootFolderId : String) :
    rebuild (rebuild s tree tabs pinnedIds rootFolderId) tree tabs pinnedIds rootFolderId
        = rebuild s tree tabs pinnedIds rootFolderId ∧
    rebuild s tree tabs pinnedIds rootFolderId
        = rebuild s' tree tabs pinnedIds rootFolderId :=
  ⟨rfl, rfl⟩

/-! ## Claim C6 — pinned-id pruning -/

/-- C6 counterexample: `rebuild` itself copies the supplied pinned ids
verbatim; a pinned id absent from the tree survives the rebuild in the
in-memory pinned order even though no entity with that id exists. -/
theorem rebuild_keeps_stale_pinned_cex :
    (rebuild emptyIndex [] [] ["ghost"] "0").pinnedIds = ["ghost"] ∧
    mapGet (rebuild emptyIndex [] [] ["ghost"] "0").byId "ghost" = none := by
  exact ⟨rfl, rfl⟩

/-- `cleanupPinned`'s flag pass does not change which keys `byId` holds. -/
theorem mapGet_setPinned (m : List (String × ManagedBookmark)) (pn : List String)
    (k : String) :
    mapGet (m.map (fun p => (p.1, { p.2 with isPinned := p.2.id ∈ pn }))) k
      = (mapGet m k).map (fun bm => { bm with isPinned := bm.id ∈ pn }) := by
  induction m with
  | nil => simp [mapGet_nil]
  | cons q m ih =>
    by_cases hq : q.1 = k
    · simp [List.map_cons, mapGet_cons, hq]
    · simp [List.map_cons, mapGet_cons, hq, ih]

/-- After `cleanupPinned`, every pinned id refers to a stored entity. -/
theorem cleanupPinned_prunes_aux (s : IndexState) :
    ∀ id ∈ (cleanupPinned s).1.pinnedIds,
      (mapGet (cleanupPinned s).1.byId id).isSome = true := by
  intro id hid
  simp only [cleanupPinned] at hid ⊢
  have hmem := List.mem_filter.mp hid
  have hsome : (mapGet s.byId id).isSome = true := by simpa using hmem.2
  rw [mapGet_setPinned]
  cases h : mapGet s.byId id with
  | none => rw [h] at hsome; cases hsome
  | some bm => simp

/-- C6 (amended): `rebuild` keeps the supplied pinned order verbatim;
pruning is the job of `cleanupPinned`, and after a rebuild followed by
`cleanupPinned` every id in the in-memory pinned order refers to an entry
of the rebuilt entity store. -/
theorem rebuild_then_cleanupPinned_prunes (s : IndexState)
    (tree : List BookmarkNode) (tabs : List TabInfo) (pinnedIds : List String)
    (rootFolderId : String) :
    (rebuild s tree tabs pinnedIds rootFolderId).pinnedIds = pinnedIds ∧
    ∀ id ∈ (cleanupPinned (rebuild s tree tabs pinnedIds rootFolderId)).1.pinnedIds,
      (mapGet (cleanupPinned (rebuild s tree tabs pinnedIds rootFolderId)).1.byId id).isSome
        = true :=
  ⟨rfl, cleanupPinned_prunes_aux _⟩

/-- Witness tree for the C6 amended claim. -/
def witnessTreeC6 : List BookmarkNode :=
  [.mk "2" "Other Bookmarks" none none none
    (some [.mk "x1" "X" (some "https://x.com") (some "2") none none])]

/-- Witness for the C6 amended claim at a concrete rebuild with one stale
pinned id. -/
theorem rebuild_then_cleanupPinned_prunes_witness :
    "x1" ∈ (cleanupPinned (rebuild emptyIndex witnessTreeC6 [] ["x1", "gone"] "2")).1.pinnedIds ∧
    (mapGet (cleanupPinned (rebuild emptyIndex witnessTreeC6 [] ["x1", "gone"] "2")).1.byId "x1").isSome
      = true := by
  refine ⟨by decide, ?_⟩
  exact (rebuild_then_cleanupPinned_prunes emptyIndex witnessTreeC6 [] ["x1", "gone"] "2").2
    "x1" (by decide)

end Rolotabs

namespace Rolotabs

/-! ## Claim C9 — tryAssociateByUrl atomicity -/

/-- C9: `tryAssociateByUrl` returns `null` and leaves the entire index
state unchanged when no candidate under the normalised-URL lookup is free
(every candidate id is missing from the store or already loaded, or there
is no candidate, or the URL normalises to nothing); otherwise it
associates the first free candidate with the tab and returns that
bookmark's id. -/
theorem tryAssociateByUrl_atomic (s : IndexState) (tabId : Nat) (url : String)
    (tab : Option TabInfo) :
    tryAssociateByUrl s tabId url tab =
      match (candidatesOf s url).find? (isFreeCandidate s) with
      | some c => (associate s c tabId tab, some c)
      | none => (s, none) :=
  tryAssociateByUrl_eq s tabId url tab

/-! ## Claim C8 — pin/unpin round trip and lockstep -/

/-- C8: (1) for an id not currently pinned, `pin` then `unpin` restores
the pinned order and leaves the entry's `isPinned` flag false; (2) `pin`
on an already-pinned id is a strict no-op (and, being total, raises no
error); (3) `pin` and `unpin` keep every stored entry's `isPinned` flag in
lockstep with membership of its id in the (duplicate-free) pinned
order. -/
theorem pin_unpin_lockstep (s : IndexState) (id : String) :
    (id ∉ s.pinnedIds →
      (unpin (pin s id) id).pinnedIds = s.pinnedIds ∧
      ∀ bm, mapGet (unpin (pin s id) id).byId id = some bm → bm.isPinned = false) ∧
    (id ∈ s.pinnedIds → pin s id = s) ∧
    (s.pinnedIds.Nodup → PinConsistent s →
      ((pin s id).pinnedIds.Nodup ∧ PinConsistent (pin s id) ∧
       (unpin s id).pinnedIds.Nodup ∧ PinConsistent (unpin s id))) := by
  refine ⟨?_, ?_, ?_⟩
  · -- round trip
    intro hnotin
    have hpin : pin s id =
        { s with pinnedIds := s.pinnedIds ++ [id],
                 byId := updateBm s.byId id (fun bm => { bm with isPinned := true }) } := by
      simp [pin, hnotin]
    have hmem : id ∈ (pin s id).pinnedIds := by
      rw [hpin]; exact List.mem_append_right _ (List.mem_singleton_self id)
    have hunpin : unpin (pin s id) id =
        { pin s id with
            pinnedIds := (pin s id).pinnedIds.erase id,
            byId := updateBm (pin s id).byId id (fun bm => { bm with isPinned := false }) } := by
      simp [unpin, hmem]
    constructor
    · rw [hunpin, hpin]
      show (s.pinnedIds ++ [id]).erase id = s.pinnedIds
      rw [List.erase_append_right _ hnotin, List.erase_cons_head, List.append_nil]
    · intro bm hbm
      rw [hunpin] at hbm
      rw [mapGet_updateBm_self, hpin] at hbm
      simp only at hbm
      rw [mapGet_updateBm_self] at hbm
      cases h : mapGet s.byId id with
      | none => rw [h] at hbm; cases hbm
      | some b =>
        rw [h] at hbm
        simp only [Option.map_some'] at hbm
        rw [← Option.some.inj hbm]
  · -- idempotent no-op on an already-pinned id
    intro hin
    simp [pin, hin]
  · -- lockstep invariant
    intro hnd hcons
    have hpinOk : (pin s id).pinnedIds.Nodup ∧ PinConsistent (pin s id) := by
      by_cases hin : id ∈ s.pinnedIds
      · simpa [pin, hin] using ⟨hnd, hcons⟩
      · have hpin : pin s id =
            { s with pinnedIds := s.pinnedIds ++ [id],
                     byId := updateBm s.byId id (fun bm => { bm with isPinned := true }) } := by
          simp [pin, hin]
        constructor
        · rw [hpin]
          simp [List.nodup_append, hnd, List.disjoint_singleton, hin]
        · intro id' bm' h
          rw [hpin] at h ⊢
          simp only at h ⊢
          by_cases hq : id' = id
          · subst hq
            rw [mapGet_updateBm_self] at h
            cases hb : mapGet s.byId id' with
            | none => rw [hb] at h; cases h
            | some b =>
              rw [hb] at h
              simp only [Option.map_some'] at h
              rw [← Option.some.inj h]
              simp
          · rw [mapGet_updateBm_ne _ _ _ _ hq] at h
            have := hcons id' bm' h
            simp only [List.mem_append, List.mem_singleton]
            rw [this]
            constructor
            · exact fun hm => Or.inl hm
            · rintro (hm | rfl)
              · exact hm
              · exact absurd rfl hq
    refine ⟨hpinOk.1, hpinOk.2, ?_, ?_⟩
    · by_cases hin : id ∈ s.pinnedIds
      · have : unpin s id =
            { s with pinnedIds := s.pinnedIds.erase id,
                     byId := updateBm s.byId id (fun bm => { bm with isPinned := false }) } := by
          simp [unpin, hin]
        rw [this]
        exact hnd.erase id
      · simpa [unpin, hin] using hnd
    · by_cases hin : id ∈ s.pinnedIds
      · have hun : unpin s id =
            { s with pinnedIds := s.pinnedIds.erase id,
                     byId := updateBm s.byId id (fun bm => { bm with isPinned := false }) } := by
          simp [unpin, hin]
        intro id' bm' h
        rw [hun] at h ⊢
        simp only at h ⊢
        by_cases hq : id' = id
        · subst hq
          rw [mapGet_updateBm_self] at h
          cases hb : mapGet s.byId id' with
          | none => rw [hb] at h; cases h
          | some b =>
            rw [hb] at h
            simp only [Option.map_some'] at h
            rw [← Option.some.inj h]
            simp only [Bool.false_eq_true, false_iff]
            intro hmem
            exact absurd hmem ((hnd.mem_erase_iff).not.mpr (by simp))
        · rw [mapGet_updateBm_ne _ _ _ _ hq] at h
          have := hcons id' bm' h
          rw [this, List.mem_erase_of_ne hq]
      · simpa [unpin, hin] using hcons

end Rolotabs

namespace Rolotabs

/-- Witness record for the pin/unpin claim. -/
def witnessBmA : ManagedBookmark :=
  { id := "a", title := "A", url := some "https://a.com",
    isFolder := false, isPinned := false, isLoaded := false, isActive := false }

/-- Witness state with one unpinned entry. -/
def witnessS1 : IndexState := { emptyIndex with byId := [("a", witnessBmA)] }

/-- Witness state with one pinned entry. -/
def witnessS2 : IndexState :=
  { emptyIndex with pinnedIds := ["a"],
                    byId := [("a", { witnessBmA with isPinned := true })] }

theorem witnessS1_pinConsistent : PinConsistent witnessS1 := by
  intro id bm h
  rw [show witnessS1.byId = [("a", witnessBmA)] from rfl, mapGet_cons] at h
  by_cases hq : "a" = id
  · rw [if_pos hq] at h
    rw [← Option.some.inj h]
    subst hq
    simp [witnessBmA, witnessS1, emptyIndex]
  · rw [if_neg hq] at h
    cases h

theorem witnessS2_pinConsistent : PinConsistent witnessS2 := by
  intro id bm h
  rw [show witnessS2.byId = [("a", { witnessBmA with isPinned := true })] from rfl,
    mapGet_cons] at h
  by_cases hq : "a" = id
  · rw [if_pos hq] at h
    rw [← Option.some.inj h]
    subst hq
    simp [witnessBmA, witnessS2, emptyIndex]
  · rw [if_neg hq] at h
    cases h

/-- Witness for the pin/unpin claim: all three parts applied at concrete
states. -/
theorem pin_unpin_lockstep_witness :
    (unpin (pin witnessS1 "a") "a").pinnedIds = witnessS1.pinnedIds ∧
    pin witnessS2 "a" = witnessS2 ∧
    PinConsistent (pin witnessS1 "a") ∧
    PinConsistent (unpin witnessS2 "a") := by
  refine ⟨((pin_unpin_lockstep witnessS1 "a").1 (by decide)).1,
          (pin_unpin_lockstep witnessS2 "a").2.1 (by decide),
          ((pin_unpin_lockstep witnessS1 "a").2.2 (by decide)
            witnessS1_pinConsistent).2.1,
          ((pin_unpin_lockstep witnessS2 "a").2.2 (by decide)
            witnessS2_pinConsistent).2.2.2⟩

end Rolotabs

namespace Rolotabs

/-! ## Helpers for the navigation claims -/

theorem tryAssociate_none_of_nofree (s : IndexState) (tabId : Nat) (url : String)
    (tab : Option TabInfo)
    (h : ∀ id ∈ candidatesOf s url, isFreeCandidate s id = false) :
    tryAssociateByUrl s tabId url tab = (s, none) := by
  rw [tryAssociateByUrl_eq,
    List.find?_eq_none.mpr (fun id hid => by simp [h id hid])]

theorem find?_first_true {α : Type} (p : α → Bool) (D E : List α) (x : α)
    (hD : ∀ y ∈ D, p y = false) (hx : p x = true) :
    (D ++ x :: E).find? p = some x := by
  induction D with
  | nil => simpa using List.find?_cons_of_pos E hx
  | cons d D ih =>
    have hd := hD d (List.mem_cons_self d D)
    rw [List.cons_append, List.find?_cons_of_neg _ (by simp [hd])]
    exact ih (fun y hy => hD y (List.mem_cons_of_mem d hy))

/-- When `tryAssociateByUrl` reports no match, it returned the state it
was given. -/
theorem tryAssociate_state_of_none (s : IndexState) (tabId : Nat) (url : String)
    (tab : Option TabInfo)
    (h : (tryAssociateByUrl s tabId url tab).2 = none) :
    (tryAssociateByUrl s tabId url tab).1 = s := by
  rw [tryAssociateByUrl_eq] at h ⊢
  cases hf : (candidatesOf s url).find? (isFreeCandidate s) with
  | none => simp [hf]
  | some c => rw [hf] at h; simp at h

/-- The shape of `associate` when the tab has no current association and
the bookmark is nobody's association. -/
theorem associate_eq_of_fresh (s : IndexState) (b : String) (t : Nat)
    (tab : Option TabInfo)
    (h1 : mapGet s.tabToBookmarkId t = none)
    (h2 : ∀ p ∈ s.tabToBookmarkId, p.2 ≠ b) :
    associate s b t tab =
      { s with tabToBookmarkId := mapSet s.tabToBookmarkId t b,
               byId := updateBm s.byId b (fun bm =>
                 applySnapshot { bm with tabId := some t, isLoaded := true } tab) } := by
  simp only [associate, h1, getTabId_eq_none.mpr h2]

end Rolotabs

namespace Rolotabs

/-- The intermediate state of `handleTabNavigation`: association for the
tab deleted, the current bookmark's record marked unloaded. -/
def navTemp (s : IndexState) (tabId : Nat) (c : String) : IndexState :=
  { s with tabToBookmarkId := mapDelete s.tabToBookmarkId tabId,
           byId := updateBm s.byId c (fun bm =>
             { bm with tabId := none, isLoaded := false }) }

/-- The record refresh the rollback step applies: re-associate, snapshot
the new URL, keep the favicon unless the tab supplies one. -/
def navSnap (tabId : Nat) (newUrl : String) (tab : Option TabInfo)
    (bm : ManagedBookmark) : ManagedBookmark :=
  let bm1 := { bm with tabId := some tabId, isLoaded := true, tabUrl := some newUrl }
  match tab with
  | some t =>
    if strTruthy t.favIconUrl then { bm1 with favIconUrl := t.favIconUrl }
    else bm1
  | none => bm1

/-- The rollback step of `handleTabNavigation`: restore the association
and refresh the snapshot to the new URL. -/
def navRestore (s3 : IndexState) (tabId : Nat) (c : String) (newUrl : String)
    (tab : Option TabInfo) : IndexState :=
  { s3 with tabToBookmarkId := mapSet s3.tabToBookmarkId tabId c,
            byId := updateBm s3.byId c (navSnap tabId newUrl tab) }

/-- `handleTabNavigation` on an associated tab: dissociate tentatively,
retry by URL, commit on a match and roll back otherwise. -/
theorem handleTabNavigation_unfold (s : IndexState) (tabId : Nat)
    (newUrl : String) (tab : Option TabInfo) (c : String)
    (h : mapGet s.tabToBookmarkId tabId = some c) :
    handleTabNavigation s tabId newUrl tab =
      (match (tryAssociateByUrl (navTemp s tabId c) tabId newUrl tab).2 with
       | some _ => (tryAssociateByUrl (navTemp s tabId c) tabId newUrl tab).1
       | none =>
         navRestore ((tryAssociateByUrl (navTemp s tabId c) tabId newUrl tab).1)
           tabId c newUrl tab) := by
  simp only [handleTabNavigation, h, navTemp, navRestore, navSnap]
  rfl

end Rolotabs

namespace Rolotabs

theorem navSnap_fields (tabId : Nat) (newUrl : String) (tab : Option TabInfo)
    (bm : ManagedBookmark) :
    (navSnap tabId newUrl tab bm).tabId = some tabId ∧
    (navSnap tabId newUrl tab bm).isLoaded = true ∧
    (navSnap tabId newUrl tab bm).tabUrl = some newUrl := by
  rcases tab with _ | t
  · exact ⟨rfl, rfl, rfl⟩
  · by_cases hf : strTruthy t.favIconUrl = true
    · simp [navSnap, hf]
    · simp [navSnap, hf]

/-! ## Claim C2 — navigation rollback -/

/-- C2: when tab `L1` is associated with `S1` and `handleTabNavigation`
finds no free candidate for the new URL under the normalised lookup
(`S1` itself, temporarily free, included), the original association is
restored and `S1`'s tab-URL snapshot is refreshed to the new URL. -/
theorem handleTabNavigation_rollback (s : IndexState) (L1 : Nat) (S1 : String)
    (newUrl : String) (tab : Option TabInfo)
    (hassoc : mapGet s.tabToBookmarkId L1 = some S1)
    (hbm : (mapGet s.byId S1).isSome = true)
    (hS1notin : S1 ∉ candidatesOf s newUrl)
    (hnofree : ∀ id ∈ candidatesOf s newUrl, isFreeCandidate s id = false) :
    mapGet (handleTabNavigation s L1 newUrl tab).tabToBookmarkId L1 = some S1 ∧
    ∃ bm', mapGet (handleTabNavigation s L1 newUrl tab).byId S1 = some bm' ∧
      bm'.tabId = some L1 ∧ bm'.isLoaded = true ∧ bm'.tabUrl = some newUrl := by
  have hcand : candidatesOf (navTemp s L1 S1) newUrl = candidatesOf s newUrl := rfl
  have hbyIdNe : ∀ id, id ≠ S1 →
      mapGet (navTemp s L1 S1).byId id = mapGet s.byId id := by
    intro id hne
    show mapGet (updateBm s.byId S1
      (fun bm => { bm with tabId := none, isLoaded := false })) id = mapGet s.byId id
    exact mapGet_updateBm_ne _ _ _ _ hne
  have hside : ∀ id ∈ candidatesOf (navTemp s L1 S1) newUrl,
      isFreeCandidate (navTemp s L1 S1) id = false := by
    intro id hid
    rw [hcand] at hid
    have hne : id ≠ S1 := fun e => hS1notin (e ▸ hid)
    have h1 := hnofree id hid
    unfold isFreeCandidate at h1 ⊢
    rw [hbyIdNe id hne]
    exact h1
  have hnone : tryAssociateByUrl (navTemp s L1 S1) L1 newUrl tab
      = (navTemp s L1 S1, none) :=
    tryAssociate_none_of_nofree _ _ _ _ hside
  rw [handleTabNavigation_unfold s L1 newUrl tab S1 hassoc, hnone]
  constructor
  · show mapGet (mapSet (mapDelete s.tabToBookmarkId L1) L1 S1) L1 = some S1
    exact mapGet_mapSet_self
  · obtain ⟨bm0, hbm0⟩ := Option.isSome_iff_exists.mp hbm
    have h1 : mapGet (navTemp s L1 S1).byId S1
        = some { bm0 with tabId := none, isLoaded := false } := by
      show mapGet (updateBm s.byId S1
        (fun bm => { bm with tabId := none, isLoaded := false })) S1 = _
      rw [mapGet_updateBm_self, hbm0]
      rfl
    have h2 : mapGet (navRestore (navTemp s L1 S1) L1 S1 newUrl tab).byId S1
        = (mapGet (navTemp s L1 S1).byId S1).map (navSnap L1 newUrl tab) := by
      show mapGet (updateBm (navTemp s L1 S1).byId S1 (navSnap L1 newUrl tab)) S1 = _
      exact mapGet_updateBm_self _ _ _
    rw [h1, Option.map_some'] at h2
    exact ⟨_, h2, (navSnap_fields _ _ _ _).1, (navSnap_fields _ _ _ _).2.1,
      (navSnap_fields _ _ _ _).2.2⟩

/-- Witness state for the rollback claim: one bookmark for `https://a.com`
associated with tab 1 by a rebuild. -/
def witnessNavTree : List BookmarkNode :=
  [.mk "2" "Other Bookmarks" none none none
    (some [.mk "bm1" "A" (some "https://a.com") (some "2") (some 0) none])]

def witnessNavState : IndexState :=
  rebuild emptyIndex witnessNavTree
    [{ id := 1, url := some "https://a.com", title := some "A" }] [] "2"

/-- Witness for the rollback claim: navigating tab 1 to an unmatched URL
keeps it associated with `bm1` and refreshes the snapshot. -/
theorem handleTabNavigation_rollback_witness :
    mapGet (handleTabNavigation witnessNavState 1 "https://nowhere.com"
        (some { id := 1, url := some "https://nowhere.com" })).tabToBookmarkId 1
      = some "bm1" ∧
    ∃ bm', mapGet (handleTabNavigation witnessNavState 1 "https://nowhere.com"
        (some { id := 1, url := some "https://nowhere.com" })).byId "bm1" = some bm' ∧
      bm'.tabId = some 1 ∧ bm'.isLoaded = true ∧
      bm'.tabUrl = some "https://nowhere.com" :=
  handleTabNavigation_rollback witnessNavState 1 "bm1" "https://nowhere.com"
    (some { id := 1, url := some "https://nowhere.com" })
    (by decide) (by decide) (by decide) (by decide)

end Rolotabs

namespace Rolotabs

theorem applySnapshot_fields (bm : ManagedBookmark) (tab : Option TabInfo) :
    (applySnapshot bm tab).tabId = bm.tabId ∧
    (applySnapshot bm tab).isLoaded = bm.isLoaded := by
  rcases tab with _ | t
  · exact ⟨rfl, rfl⟩
  · by_cases h1 : strTruthy t.favIconUrl = true <;>
      by_cases h2 : strTruthy t.url = true <;>
      simp [applySnapshot, h1, h2]

/-! ## Claim C3 — reassignment on navigation -/

/-- C3: when tab `L1` is associated with `S1` and the navigated-to URL's
candidate list contains the unassociated `S2` as its first free candidate
(with `S1` not among the earlier candidates), `handleTabNavigation`
commits the reassignment: `L1` maps to `S2`, `S1` is unassociated and
unloaded, `S2` is loaded with tab `L1`. -/
theorem handleTabNavigation_reassigns (s : IndexState) (L1 : Nat)
    (S1 S2 : String) (newUrl : String) (tab : Option TabInfo)
    (D E : List String)
    (hassoc : mapGet s.tabToBookmarkId L1 = some S1)
    (hinj : ∀ p ∈ s.tabToBookmarkId, p.2 = S1 → p.1 = L1)
    (hS1p : (mapGet s.byId S1).isSome = true)
    (hne : S1 ≠ S2)
    (hsplit : candidatesOf s newUrl = D ++ S2 :: E)
    (hS1notinD : S1 ∉ D)
    (hDnotfree : ∀ id ∈ D, isFreeCandidate s id = false)
    (hS2free : isFreeCandidate s S2 = true)
    (hS2unassoc : ∀ p ∈ s.tabToBookmarkId, p.2 ≠ S2) :
    mapGet (handleTabNavigation s L1 newUrl tab).tabToBookmarkId L1 = some S2 ∧
    (∀ p ∈ (handleTabNavigation s L1 newUrl tab).tabToBookmarkId, p.2 ≠ S1) ∧
    (∃ bm1, mapGet (handleTabNavigation s L1 newUrl tab).byId S1 = some bm1 ∧
      bm1.tabId = none ∧ bm1.isLoaded = false) ∧
    (∃ bm2, mapGet (handleTabNavigation s L1 newUrl tab).byId S2 = some bm2 ∧
      bm2.tabId = some L1 ∧ bm2.isLoaded = true) := by
  have hbyIdNe : ∀ id, id ≠ S1 →
      mapGet (navTemp s L1 S1).byId id = mapGet s.byId id := by
    intro id hid
    show mapGet (updateBm s.byId S1
      (fun bm => { bm with tabId := none, isLoaded := false })) id = mapGet s.byId id
    exact mapGet_updateBm_ne _ _ _ _ hid
  have hfree2 : isFreeCandidate (navTemp s L1 S1) S2 = true := by
    unfold isFreeCandidate at hS2free ⊢
    rw [hbyIdNe S2 (Ne.symm hne)]
    exact hS2free
  have hDfree2 : ∀ y ∈ D, isFreeCandidate (navTemp s L1 S1) y = false := by
    intro y hy
    have hyne : y ≠ S1 := fun e => hS1notinD (e ▸ hy)
    have h1 := hDnotfree y hy
    unfold isFreeCandidate at h1 ⊢
    rw [hbyIdNe y hyne]
    exact h1
  have hfind : (candidatesOf (navTemp s L1 S1) newUrl).find?
      (isFreeCandidate (navTemp s L1 S1)) = some S2 := by
    rw [show candidatesOf (navTemp s L1 S1) newUrl = candidatesOf s newUrl from rfl,
      hsplit]
    exact find?_first_true _ D E S2 hDfree2 hfree2
  have hsome : tryAssociateByUrl (navTemp s L1 S1) L1 newUrl tab
      = (associate (navTemp s L1 S1) S2 L1 tab, some S2) := by
    rw [tryAssociateByUrl_eq, hfind]
  have hTfresh : mapGet (navTemp s L1 S1).tabToBookmarkId L1 = none := by
    show mapGet (mapDelete s.tabToBookmarkId L1) L1 = none
    exact mapGet_mapDelete_self
  have hTnoS2 : ∀ p ∈ (navTemp s L1 S1).tabToBookmarkId, p.2 ≠ S2 := by
    intro p hp
    exact hS2unassoc p (mem_mapDelete.mp hp).1
  have hA : associate (navTemp s L1 S1) S2 L1 tab =
      { navTemp s L1 S1 with
          tabToBookmarkId := mapSet (navTemp s L1 S1).tabToBookmarkId L1 S2,
          byId := updateBm (navTemp s L1 S1).byId S2 (fun bm =>
            applySnapshot { bm with tabId := some L1, isLoaded := true } tab) } :=
    associate_eq_of_fresh _ _ _ _ hTfresh hTnoS2
  have hH : handleTabNavigation s L1 newUrl tab
      = associate (navTemp s L1 S1) S2 L1 tab := by
    rw [handleTabNavigation_unfold s L1 newUrl tab S1 hassoc, hsome]
  rw [hH, hA]
  refine ⟨?_, ?_, ?_, ?_⟩
  · show mapGet (mapSet (mapDelete s.tabToBookmarkId L1) L1 S2) L1 = some S2
    exact mapGet_mapSet_self
  · intro p hp
    have hp2 : p ∈ mapSet (mapDelete s.tabToBookmarkId L1) L1 S2 := hp
    rcases mem_mapSet.mp hp2 with rfl | ⟨hpm, _⟩
    · exact Ne.symm hne
    · have hd := mem_mapDelete.mp hpm
      intro e
      exact hd.2 (hinj p hd.1 e)
  · obtain ⟨bm0, hbm0⟩ := Option.isSome_iff_exists.mp hS1p
    have h1 : mapGet (navTemp s L1 S1).byId S1
        = some { bm0 with tabId := none, isLoaded := false } := by
      show mapGet (updateBm s.byId S1
        (fun bm => { bm with tabId := none, isLoaded := false })) S1 = _
      rw [mapGet_updateBm_self, hbm0]
      rfl
    show ∃ bm1, mapGet (updateBm (navTemp s L1 S1).byId S2 (fun bm =>
        applySnapshot { bm with tabId := some L1, isLoaded := true } tab)) S1
        = some bm1 ∧ bm1.tabId = none ∧ bm1.isLoaded = false
    rw [mapGet_updateBm_ne _ _ _ _ hne, h1]
    exact ⟨_, rfl, rfl, rfl⟩
  · have hfree := hfree2
    unfold isFreeCandidate at hfree
    cases hb2 : mapGet (navTemp s L1 S1).byId S2 with
    | none => rw [hb2] at hfree; cases hfree
    | some b2 =>
      show ∃ bm2, mapGet (updateBm (navTemp s L1 S1).byId S2 (fun bm =>
          applySnapshot { bm with tabId := some L1, isLoaded := true } tab)) S2
          = some bm2 ∧ bm2.tabId = some L1 ∧ bm2.isLoaded = true
      rw [mapGet_updateBm_self, hb2]
      refine ⟨_, rfl, ?_, ?_⟩
      · rw [(applySnapshot_fields _ _).1]
      · rw [(applySnapshot_fields _ _).2]

/-- Witness tree for the reassignment claim. -/
def witnessReassignTree : List BookmarkNode :=
  [.mk "2" "Other Bookmarks" none none none
    (some [.mk "bm1" "A" (some "https://a.com") (some "2") (some 0) none,
           .mk "bm2" "B" (some "https://b.com") (some "2") (some 1) none])]

def witnessReassignState : IndexState :=
  rebuild emptyIndex witnessReassignTree
    [{ id := 1, url := some "https://a.com", title := some "A" }] [] "2"

/-- Witness for the reassignment claim: navigating tab 1 from
`https://a.com` to `https://b.com` moves the association to `bm2`. -/
theorem handleTabNavigation_reassigns_witness :
    mapGet (handleTabNavigation witnessReassignState 1 "https://b.com"
        (some { id := 1, url := some "https://b.com" })).tabToBookmarkId 1
      = some "bm2" ∧
    (∀ p ∈ (handleTabNavigation witnessReassignState 1 "https://b.com"
        (some { id := 1, url := some "https://b.com" })).tabToBookmarkId,
      p.2 ≠ "bm1") ∧
    (∃ bm1, mapGet (handleTabNavigation witnessReassignState 1 "https://b.com"
        (some { id := 1, url := some "https://b.com" })).byId "bm1" = some bm1 ∧
      bm1.tabId = none ∧ bm1.isLoaded = false) ∧
    (∃ bm2, mapGet (handleTabNavigation witnessReassignState 1 "https://b.com"
        (some { id := 1, url := some "https://b.com" })).byId "bm2" = some bm2 ∧
      bm2.tabId = some 1 ∧ bm2.isLoaded = true) :=
  handleTabNavigation_reassigns witnessReassignState 1 "bm1" "bm2" "https://b.com"
    (some { id := 1, url := some "https://b.com" }) [] []
    (by decide) (by decide) (by decide) (by decide) (by decide) (by decide)
    (by decide) (by decide) (by decide)

end Rolotabs

namespace Rolotabs

/-! ## Claim C10 — ambiguous-match resolution order -/

/-- The ids of the flat bookmark list whose destination normalises to `n`,
in tree-traversal order. -/
def treeCandidates (flat : List (String × String)) (n : String) : List String :=
  (flat.filter (fun p => !(p.2 = "") && (normalizeUrl p.2 == some n))).map Prod.fst

theorem mapGet_addToUrlIndex_ne (idx : List (String × List String))
    (n' bid : String) (n : String) (h : n ≠ n') :
    mapGet (addToUrlIndex idx n' bid) n = mapGet idx n := by
  unfold addToUrlIndex
  cases mapGet idx n' <;> exact mapGet_mapSet_ne h

theorem mapGet_addToUrlIndex_self (idx : List (String × List String))
    (n bid : String) (h : bid ∉ (mapGet idx n).getD []) :
    mapGet (addToUrlIndex idx n bid) n
      = some ((mapGet idx n).getD [] ++ [bid]) := by
  unfold addToUrlIndex
  cases hg : mapGet idx n with
  | none => rw [mapGet_mapSet_self]; rfl
  | some l =>
    rw [hg] at h
    simp only [Option.getD_some] at h
    simp only [if_neg h]
    rw [mapGet_mapSet_self]
    simp

/-- `buildUrlIndex` stores, under each normalised key, the matching flat
bookmarks in tree order (appended after whatever the accumulator already
held). -/
theorem buildUrlIndex_get (n : String) (hne : n ≠ "") :
    ∀ (flat : List (String × String)) (idx : List (String × List String)),
      (flat.map Prod.fst).Nodup →
      (∀ p ∈ flat, p.1 ∉ (mapGet idx n).getD []) →
      (mapGet (buildUrlIndex flat idx) n).getD []
        = (mapGet idx n).getD [] ++ treeCandidates flat n := by
  intro flat
  induction flat with
  | nil => intro idx _ _; simp [buildUrlIndex, treeCandidates]
  | cons p rest ih =>
    rcases p with ⟨bid, burl⟩
    intro idx hnd hdisj
    rw [List.map_cons, List.nodup_cons] at hnd
    by_cases hbe : burl = ""
    · have : buildUrlIndex ((bid, burl) :: rest) idx = buildUrlIndex rest idx := by
        simp [buildUrlIndex, hbe]
      rw [this, ih idx hnd.2 (fun q hq => hdisj q (List.mem_cons_of_mem _ hq))]
      have : treeCandidates ((bid, burl) :: rest) n = treeCandidates rest n := by
        simp [treeCandidates, hbe]
      rw [this]
    · cases hnb : normalizeUrl burl with
      | none =>
        have hstep : buildUrlIndex ((bid, burl) :: rest) idx = buildUrlIndex rest idx := by
          simp [buildUrlIndex, hbe, hnb]
        have hcand : treeCandidates ((bid, burl) :: rest) n = treeCandidates rest n := by
          simp [treeCandidates, hbe, hnb]
        rw [hstep, hcand, ih idx hnd.2 (fun q hq => hdisj q (List.mem_cons_of_mem _ hq))]
      | some n' =>
        by_cases hn' : n' = n
        · subst hn'
          have hstep : buildUrlIndex ((bid, burl) :: rest) idx
              = buildUrlIndex rest (addToUrlIndex idx n' bid) := by
            simp [buildUrlIndex, hbe, hnb, hne]
          have hget := mapGet_addToUrlIndex_self idx n' bid
            (hdisj (bid, burl) (List.mem_cons_self _ _))
          have hcand : treeCandidates ((bid, burl) :: rest) n'
              = bid :: treeCandidates rest n' := by
            simp [treeCandidates, hbe, hnb]
          rw [hstep, hcand,
            ih (addToUrlIndex idx n' bid) hnd.2 ?_, hget]
          · simp
          · intro q hq
            rw [hget]
            simp only [Option.getD_some, List.mem_append, List.mem_singleton]
            rintro (hmem | rfl)
            · exact hdisj q (List.mem_cons_of_mem _ hq) hmem
            · exact hnd.1 (List.mem_map.mpr ⟨q, hq, rfl⟩)
        · by_cases hn'e : n' = ""
          · have hstep : buildUrlIndex ((bid, burl) :: rest) idx = buildUrlIndex rest idx := by
              simp [buildUrlIndex, hbe, hnb, hn'e]
            have hcand : treeCandidates ((bid, burl) :: rest) n = treeCandidates rest n := by
              simp only [treeCandidates, List.filter]
              have : (!(burl = "") && (normalizeUrl burl == some n)) = false := by
                simp [hnb, hn']
              rw [this]
            rw [hstep, hcand, ih idx hnd.2 (fun q hq => hdisj q (List.mem_cons_of_mem _ hq))]
          · have hstep : buildUrlIndex ((bid, burl) :: rest) idx
                = buildUrlIndex rest (addToUrlIndex idx n' bid) := by
              simp [buildUrlIndex, hbe, hnb, hn'e]
            have hcand : treeCandidates ((bid, burl) :: rest) n = treeCandidates rest n := by
              simp only [treeCandidates, List.filter]
              have : (!(burl = "") && (normalizeUrl burl == some n)) = false := by
                simp [hnb, hn']
              rw [this]
            rw [hstep, hcand, ih (addToUrlIndex idx n' bid) hnd.2 ?_]
            · rw [mapGet_addToUrlIndex_ne idx n' bid n (fun e => hn' e.symm)]
            · intro q hq
              rw [mapGet_addToUrlIndex_ne idx n' bid n (fun e => hn' e.symm)]
              exact hdisj q (List.mem_cons_of_mem _ hq)

end Rolotabs

namespace Rolotabs

/-- State for the C10 counterexample: `bar` (tree index 1) enters the URL
index at the rebuild, then `b1` (tree index 0, same parent, same
destination) is added incrementally and is appended after it. -/
def c10State : IndexState :=
  addBookmark
    (rebuild emptyIndex
      [.mk "2" "Other Bookmarks" none none none
        (some [.mk "bar" "Bar" (some "https://a.com/x") (some "2") (some 1) none])]
      [] [] "2")
    (.mk "b1" "B1" (some "https://a.com/x") (some "2") (some 0) none) []

/-- C10 counterexample: after an incremental `addBookmark`, two free
candidates share the looked-up destination; `b1` is the earlier one in
tree-traversal order (same parent, index 0 vs 1), yet `tryAssociateByUrl`
picks `bar` — URL-index insertion order, not tree order. -/
theorem tryAssociateByUrl_not_tree_order_cex :
    (tryAssociateByUrl c10State 5 "https://a.com/x" none).2 = some "bar" ∧
    "b1" ∈ candidatesOf c10State "https://a.com/x" ∧
    isFreeCandidate c10State "b1" = true ∧
    isFreeCandidate c10State "bar" = true ∧
    (mapGet c10State.byId "b1").map (fun b => (b.parentId, b.index))
      = some (some "2", some 0) ∧
    (mapGet c10State.byId "bar").map (fun b => (b.parentId, b.index))
      = some (some "2", some 1) := by
  decide

/-- C10 (amended): `tryAssociateByUrl` always picks the first free
candidate in the URL-index's insertion order, and immediately after a
rebuild (before incremental additions) that order is tree-traversal
order: the result equals the first free id among the tree-ordered matching
flat bookmarks.  Ambiguity is resolved by this order, never reported as an
error (the operation is total). -/
theorem tryAssociateByUrl_tree_order_after_rebuild
    (s : IndexState) (tree : List BookmarkNode) (tabs : List TabInfo)
    (pinnedIds : List String) (rootFolderId : String)
    (tabId : Nat) (url : String) (tab : Option TabInfo) (n : String)
    (hnd : ((flatForest tree).map Prod.fst).Nodup)
    (hn : normalizeUrl url = some n) (hne : ¬(n = "")) :
    (tryAssociateByUrl (rebuild s tree tabs pinnedIds rootFolderId) tabId url tab).2
      = (treeCandidates (flatForest tree) n).find?
          (isFreeCandidate (rebuild s tree tabs pinnedIds rootFolderId)) := by
  have hcand : candidatesOf (rebuild s tree tabs pinnedIds rootFolderId) url
      = treeCandidates (flatForest tree) n := by
    simp only [candidatesOf, hn, if_neg hne]
    have h0 := buildUrlIndex_get n hne (flatForest tree) [] hnd
      (fun q _ => by simp [mapGet_nil])
    simpa using h0
  rw [tryAssociateByUrl_eq, hcand]
  cases (treeCandidates (flatForest tree) n).find?
      (isFreeCandidate (rebuild s tree tabs pinnedIds rootFolderId)) <;> rfl

/-- Witness tree for the amended C10 claim: two bookmarks sharing one
destination. -/
def witnessC10Tree : List BookmarkNode :=
  [.mk "2" "Other Bookmarks" none none none
    (some [.mk "bmX" "X" (some "https://dup.com") (some "2") (some 0) none,
           .mk "bmY" "Y" (some "https://dup.com") (some "2") (some 1) none])]

/-- Witness for the amended C10 claim: right after a rebuild the chosen
bookmark is the tree-order-first free candidate. -/
theorem tryAssociateByUrl_tree_order_after_rebuild_witness :
    (tryAssociateByUrl (rebuild emptyIndex witnessC10Tree [] [] "2") 7
        "https://dup.com" none).2
      = (treeCandidates (flatForest witnessC10Tree) "https://dup.com").find?
          (isFreeCandidate (rebuild emptyIndex witnessC10Tree [] [] "2")) :=
  tryAssociateByUrl_tree_order_after_rebuild emptyIndex witnessC10Tree [] [] "2" 7
    "https://dup.com" none "https://dup.com" (by decide) (by decide) (by decide)

end Rolotabs

namespace Rolotabs

/-! ## Claim C7 — the destination matcher -/

section UrlLemmas

theorem mem_takeWhileP {p : Char → Bool} :
    ∀ {l : List Char} {c : Char}, c ∈ l.takeWhile p → p c = true := by
  intro l
  induction l with
  | nil => intro c h; cases h
  | cons a l ih =>
    intro c h
    rw [List.takeWhile_cons] at h
    by_cases hp : p a = true
    · rw [if_pos hp] at h
      rcases List.mem_cons.mp h with rfl | h'
      · exact hp
      · exact ih h'
    · rw [if_neg hp] at h
      cases h

theorem dropWhile_head_not {p : Char → Bool} :
    ∀ {l : List Char} {c : Char} {cs : List Char},
      l.dropWhile p = c :: cs → p c = false := by
  intro l
  induction l with
  | nil => intro c cs h; cases h
  | cons a l ih =>
    intro c cs h
    rw [List.dropWhile_cons] at h
    by_cases hp : p a = true
    · rw [if_pos hp] at h
      exact ih h
    · rw [if_neg hp] at h
      cases h
      simpa using hp

theorem takeWhile_append_all {p : Char → Bool} :
    ∀ {l : List Char}, (∀ c ∈ l, p c = true) →
      ∀ r, (l ++ r).takeWhile p = l ++ r.takeWhile p := by
  intro l
  induction l with
  | nil => intro _ r; rfl
  | cons a l ih =>
    intro h r
    rw [List.cons_append, List.takeWhile_cons,
      if_pos (h a (List.mem_cons_self a l)), ih (fun c hc => h c (List.mem_cons_of_mem a hc)) r,
      List.cons_append]

theorem dropWhile_append_all {p : Char → Bool} :
    ∀ {l : List Char}, (∀ c ∈ l, p c = true) →
      ∀ r, (l ++ r).dropWhile p = r.dropWhile p := by
  intro l
  induction l with
  | nil => intro _ r; rfl
  | cons a l ih =>
    intro h r
    rw [List.cons_append, List.dropWhile_cons,
      if_pos (h a (List.mem_cons_self a l))]
    exact ih (fun c hc => h c (List.mem_cons_of_mem a hc)) r

theorem takeWhile_nil_of_head_false {p : Char → Bool} {c : Char} {l : List Char}
    (h : p c = false) : (c :: l).takeWhile p = [] := by
  rw [List.takeWhile_cons, if_neg (by simp [h])]

theorem mem_stripTrailingSlashes :
    ∀ {l : List Char} {c : Char}, c ∈ stripTrailingSlashes l → c ∈ l := by
  intro l
  induction l with
  | nil => intro c h; cases h
  | cons a l ih =>
    intro c h
    unfold stripTrailingSlashes at h
    cases hr : stripTrailingSlashes l with
    | nil =>
      rw [hr] at h
      by_cases ha : a = '/'
      · rw [if_pos ha] at h; cases h
      · rw [if_neg ha] at h
        rcases List.mem_singleton.mp h with rfl
        exact List.mem_cons_self _ _
    | cons r rs =>
      rw [hr] at h
      rcases List.mem_cons.mp h with rfl | h'
      · exact List.mem_cons_self _ _
      · exact List.mem_cons_of_mem _ (ih (hr ▸ h'))

theorem stripTrailingSlashes_cons_shape (a : Char) (l : List Char) :
    stripTrailingSlashes (a :: l) = [] ∨
    ∃ l', stripTrailingSlashes (a :: l) = a :: l' := by
  unfold stripTrailingSlashes
  cases hr : stripTrailingSlashes l with
  | nil =>
    by_cases ha : a = '/'
    · left; rw [if_pos ha]
    · right; exact ⟨[], by rw [if_neg ha]⟩
  | cons r rs => right; exact ⟨r :: rs, rfl⟩

theorem stripTrailingSlashes_idem :
    ∀ l : List Char, stripTrailingSlashes (stripTrailingSlashes l)
      = stripTrailingSlashes l := by
  intro l
  induction l with
  | nil => rfl
  | cons a l ih =>
    have hstep : stripTrailingSlashes (a :: l) =
        match stripTrailingSlashes l with
        | [] => if a = '/' then [] else [a]
        | r => a :: r := rfl
    cases hr : stripTrailingSlashes l with
    | nil =>
      have hval : stripTrailingSlashes (a :: l) = if a = '/' then [] else [a] := by
        rw [hstep, hr]
      rw [hval]
      by_cases ha : a = '/'
      · rw [if_pos ha]; rfl
      · rw [if_neg ha]
        have : stripTrailingSlashes [a] = if a = '/' then [] else [a] := rfl
        rw [this, if_neg ha]
    | cons r rs =>
      have hval : stripTrailingSlashes (a :: l) = a :: r :: rs := by
        rw [hstep, hr]
      rw [hval]
      rw [hr] at ih
      have : stripTrailingSlashes (a :: r :: rs) =
          match stripTrailingSlashes (r :: rs) with
          | [] => if a = '/' then [] else [a]
          | q => a :: q := rfl
      rw [this, ih]

theorem dropStart_append_self :
    ∀ (p l : List Char), dropStart p (p ++ l) = some l := by
  intro p
  induction p with
  | nil => intro l; rfl
  | cons a p ih =>
    intro l
    show dropStart (a :: p) (a :: (p ++ l)) = some l
    unfold dropStart
    rw [if_pos rfl]
    exact ih l

theorem dropStart_https_of_http (l : List Char) :
    dropStart httpsCL (httpCL ++ l) = none := by
  simp [httpsCL, httpCL, dropStart]

theorem dropStart_http_of_https (l : List Char) :
    dropStart httpCL (httpsCL ++ l) = none := by
  simp [httpCL, httpsCL, dropStart]

end UrlLemmas

end Rolotabs

namespace Rolotabs

/-- The shape invariants of every parser output. -/
def WfParts (u : URLParts) : Prop :=
  u.host ≠ [] ∧ (∀ c ∈ u.host, isHostEnd c = false) ∧
  (u.path = [] ∨ ∃ tl, u.path = '/' :: tl) ∧
  (∀ c ∈ u.path, isPathEnd c = false) ∧
  (∀ c ∈ u.query, ¬(c = '#'))

theorem queryOf_mem : ∀ {r : List Char} {c : Char}, c ∈ queryOf r → ¬(c = '#') := by
  intro r c h
  match r with
  | [] => cases h
  | '?' :: r3 =>
    have : queryOf ('?' :: r3) = r3.takeWhile (fun c => !(c = '#')) := rfl
    rw [this] at h
    simpa using mem_takeWhileP h
  | c2 :: r3 =>
    unfold queryOf at h
    split at h
    · simpa using mem_takeWhileP h
    · cases h

theorem parseAfterScheme_wf {secure : Bool} {rest : List Char} {u : URLParts}
    (h : parseAfterScheme secure rest = some u) : WfParts u := by
  unfold parseAfterScheme at h
  by_cases hh : rest.takeWhile (fun c => !isHostEnd c) = []
  · simp [hh] at h
  · simp only [if_neg hh] at h
    rw [← Option.some.inj h]
    refine ⟨hh, ?_, ?_, ?_, ?_⟩
    · intro c hc
      simpa using mem_takeWhileP hc
    · cases hr1 : rest.dropWhile (fun c => !isHostEnd c) with
      | nil => left; rfl
      | cons c cs =>
        have hc := dropWhile_head_not hr1
        simp only [Bool.not_eq_false'] at hc
        have : c = '/' ∨ c = '?' ∨ c = '#' := by
          simpa [isHostEnd, or_assoc] using hc
        rcases this with rfl | rfl | rfl
        · right
          refine ⟨cs.takeWhile (fun c => !isPathEnd c), ?_⟩
          show List.takeWhile (fun c => !isPathEnd c) ('/' :: cs) = _
          rw [List.takeWhile_cons, if_pos (by simp [isPathEnd])]
        · left
          show List.takeWhile (fun c => !isPathEnd c) ('?' :: cs) = []
          exact takeWhile_nil_of_head_false (by simp [isPathEnd])
        · left
          show List.takeWhile (fun c => !isPathEnd c) ('#' :: cs) = []
          exact takeWhile_nil_of_head_false (by simp [isPathEnd])
    · intro c hc
      simpa using mem_takeWhileP hc
    · intro c hc
      exact queryOf_mem hc

theorem parseChars_wf {l : List Char} {u : URLParts}
    (h : parseChars l = some u) : WfParts u := by
  unfold parseChars at h
  cases h1 : dropStart httpsCL l with
  | some rest =>
    rw [h1] at h
    exact parseAfterScheme_wf h
  | none =>
    rw [h1] at h
    cases h2 : dropStart httpCL l with
    | some rest =>
      rw [h2] at h
      exact parseAfterScheme_wf h
    | none => rw [h2] at h; cases h

theorem takeWhile_all {p : Char → Bool} {l : List Char}
    (h : ∀ c ∈ l, p c = true) : l.takeWhile p = l := by
  have := takeWhile_append_all h []
  simpa using this

/-- Reparsing a serialised well-formed URL succeeds. -/
theorem parseAfterScheme_of_parts (secure : Bool) (host sp q : List Char)
    (hh : host ≠ []) (hhm : ∀ c ∈ host, isHostEnd c = false)
    (hsp : sp = [] ∨ ∃ tl, sp = '/' :: tl)
    (hspm : ∀ c ∈ sp, isPathEnd c = false)
    (hq : ∀ c ∈ q, ¬(c = '#')) :
    parseAfterScheme secure (host ++ (sp ++ (if q = [] then [] else '?' :: q)))
      = some ⟨secure, host, sp, q⟩ := by
  have hhost' : ∀ c ∈ host, (fun c => !isHostEnd c) c = true := by
    intro c hc; simp [hhm c hc]
  have hsp_hostfree : (sp ++ (if q = [] then [] else '?' :: q)).takeWhile
      (fun c => !isHostEnd c) = [] := by
    rcases hsp with rfl | ⟨tl, rfl⟩
    · by_cases hqe : q = []
      · simp [hqe]
      · rw [if_neg hqe]
        exact takeWhile_nil_of_head_false (by simp [isHostEnd])
    · rw [List.cons_append]
      exact takeWhile_nil_of_head_false (by simp [isHostEnd])
  have htake : (host ++ (sp ++ (if q = [] then [] else '?' :: q))).takeWhile
      (fun c => !isHostEnd c) = host := by
    rw [takeWhile_append_all hhost', hsp_hostfree, List.append_nil]
  have hdrop : (host ++ (sp ++ (if q = [] then [] else '?' :: q))).dropWhile
      (fun c => !isHostEnd c) = sp ++ (if q = [] then [] else '?' :: q) := by
    rw [dropWhile_append_all hhost']
    rcases hsp with rfl | ⟨tl, rfl⟩
    · by_cases hqe : q = []
      · simp [hqe]
      · rw [if_neg hqe]
        simp only [List.nil_append]
        rw [List.dropWhile_cons, if_neg (by simp [isHostEnd])]
    · rw [List.cons_append, List.dropWhile_cons, if_neg (by simp [isHostEnd])]
  have hsp' : ∀ c ∈ sp, (fun c => !isPathEnd c) c = true := by
    intro c hc; simp [hspm c hc]
  have hq_pathfree : (if q = [] then ([] : List Char) else '?' :: q).takeWhile
      (fun c => !isPathEnd c) = [] := by
    by_cases hqe : q = []
    · simp [hqe]
    · rw [if_neg hqe]
      exact takeWhile_nil_of_head_false (by simp [isPathEnd])
  have htake2 : (sp ++ (if q = [] then [] else '?' :: q)).takeWhile
      (fun c => !isPathEnd c) = sp := by
    rw [takeWhile_append_all hsp', hq_pathfree, List.append_nil]
  have hdrop2 : (sp ++ (if q = [] then [] else '?' :: q)).dropWhile
      (fun c => !isPathEnd c) = (if q = [] then [] else '?' :: q) := by
    rw [dropWhile_append_all hsp']
    by_cases hqe : q = []
    · simp [hqe]
    · rw [if_neg hqe, List.dropWhile_cons, if_neg (by simp [isPathEnd])]
  have hquery : queryOf (if q = [] then ([] : List Char) else '?' :: q) = q := by
    by_cases hqe : q = []
    · simp [hqe, queryOf]
    · rw [if_neg hqe]
      have : queryOf ('?' :: q) = q.takeWhile (fun c => !(c = '#')) := rfl
      rw [this, takeWhile_all (fun c hc => by simp [hq c hc])]
  unfold parseAfterScheme
  simp only [htake, hdrop, htake2, hdrop2, hquery, if_neg hh]

/-- A serialised well-formed URL reparses to a well-formed URL (the
normalisation of a parseable string is itself parseable). -/
theorem parseChars_normChars (u : URLParts) (h : WfParts u) :
    parseChars (normChars u)
      = some ⟨u.secure, u.host, stripTrailingSlashes (pathnameChars u), u.query⟩ := by
  rcases u with ⟨sec, host, path, query⟩
  obtain ⟨hh, hhm, hps, hpm, hqm⟩ := h
  dsimp only at hh hhm hps hpm hqm
  have hsp : stripTrailingSlashes (pathnameChars ⟨sec, host, path, query⟩) = [] ∨
      ∃ tl, stripTrailingSlashes (pathnameChars ⟨sec, host, path, query⟩) = '/' :: tl := by
    rcases hps with hpe | ⟨tl, hpc⟩
    · left
      show stripTrailingSlashes (if path = [] then ['/'] else path) = []
      rw [if_pos hpe]
      rfl
    · show stripTrailingSlashes (if path = [] then ['/'] else path) = [] ∨
        ∃ tl, stripTrailingSlashes (if path = [] then ['/'] else path) = '/' :: tl
      rw [if_neg (by rw [hpc]; exact List.cons_ne_nil _ _), hpc]
      exact stripTrailingSlashes_cons_shape '/' tl
  have hspm : ∀ c ∈ stripTrailingSlashes (pathnameChars ⟨sec, host, path, query⟩),
      isPathEnd c = false := by
    intro c hc
    have hmem := mem_stripTrailingSlashes hc
    unfold pathnameChars at hmem
    by_cases hpe : path = []
    · rw [if_pos hpe] at hmem
      rcases List.mem_singleton.mp hmem with rfl
      simp [isPathEnd]
    · rw [if_neg hpe] at hmem
      exact hpm c hmem
  have hkey := parseAfterScheme_of_parts sec host
    (stripTrailingSlashes (pathnameChars ⟨sec, host, path, query⟩)) query
    hh hhm hsp hspm hqm
  have hnorm : normChars ⟨sec, host, path, query⟩
      = (if sec then httpsCL else httpCL) ++
        (host ++ (stripTrailingSlashes (pathnameChars ⟨sec, host, path, query⟩) ++
          (if query = [] then [] else '?' :: query))) := by
    show originChars _ ++ stripTrailingSlashes (pathnameChars _) ++ searchChars _ = _
    unfold originChars searchChars
    simp only [List.append_assoc]
  cases sec with
  | true =>
    unfold parseChars
    rw [hnorm]
    simp only [if_true]
    rw [dropStart_append_self]
    exact hkey
  | false =>
    unfold parseChars
    rw [hnorm]
    simp only [Bool.false_eq_true, if_false]
    rw [dropStart_https_of_http, dropStart_append_self]
    exact hkey

end Rolotabs

namespace Rolotabs

/-- JS presence (`!url` guard): absent or empty strings are falsy. -/
def strPresent : Option String → Bool
  | none => false
  | some s => !(s == "")

/-- The spec's normalisation: origin + path (minus a trailing-slash run) +
query, falling back to the raw string on parse failure. -/
def specNormalize (s : String) : String :=
  match parseChars s.toList with
  | some u => normString u
  | none => s

theorem urlsMatch_spec (a b : Option String) :
    urlsMatch a b = (strPresent a && strPresent b &&
      (specNormalize (a.getD "") == specNormalize (b.getD ""))) := by
  rcases a with _ | s1
  · show false = _
    simp [strPresent]
  · rcases b with _ | s2
    · show false = _
      simp [strPresent]
    · by_cases h1 : s1 = ""
      · subst h1
        simp [urlsMatch, strPresent]
      · by_cases h2 : s2 = ""
        · subst h2
          simp [urlsMatch, strPresent, h1]
        · have hcond : (s1 = "" || s2 = "") = false := by simp [h1, h2]
          show (if s1 = "" || s2 = "" then false
            else match parseChars s1.toList, parseChars s2.toList with
              | some a, some b => normString a == normString b
              | _, _ => s1 == s2) = _
          rw [hcond, if_neg (by simp)]
          cases hpa : parseChars s1.toList with
          | some a' =>
            cases hpb : parseChars s2.toList with
            | some b' =>
              have hpa2 : parseChars s1.data = some a' := hpa
              have hpb2 : parseChars s2.data = some b' := hpb
              simp [specNormalize, hpa2, hpb2, strPresent, h1, h2]
            | none =>
              have hL : (s1 == s2) = false := by
                rw [beq_eq_false_iff_ne]
                intro e
                have := e ▸ hpa
                rw [hpb] at this
                cases this
              have hre := parseChars_normChars a' (parseChars_wf hpa)
              have hR : (normString a' == s2) = false := by
                rw [beq_eq_false_iff_ne]
                intro e
                have h3 : parseChars s2.toList
                    = some ⟨a'.secure, a'.host,
                        stripTrailingSlashes (pathnameChars a'), a'.query⟩ := by
                  rw [← e]
                  exact hre
                rw [hpb] at h3
                cases h3
              have hpa2 : parseChars s1.data = some a' := hpa
              have hpb2 : parseChars s2.data = none := hpb
              simp [hL, hR, specNormalize, hpa2, hpb2, strPresent, h1, h2]
          | none =>
            cases hpb : parseChars s2.toList with
            | some b' =>
              have hL : (s1 == s2) = false := by
                rw [beq_eq_false_iff_ne]
                intro e
                have := e.symm ▸ hpb
                rw [hpa] at this
                cases this
              have hre := parseChars_normChars b' (parseChars_wf hpb)
              have hR : (s1 == normString b') = false := by
                rw [beq_eq_false_iff_ne]
                intro e
                have h3 : parseChars s1.toList
                    = some ⟨b'.secure, b'.host,
                        stripTrailingSlashes (pathnameChars b'), b'.query⟩ := by
                  rw [e]
                  exact hre
                rw [hpa] at h3
                cases h3
              have hpa2 : parseChars s1.data = none := hpa
              have hpb2 : parseChars s2.data = some b' := hpb
              simp [hL, hR, specNormalize, hpa2, hpb2, strPresent, h1, h2]
            | none =>
              have hpa2 : parseChars s1.data = none := hpa
              have hpb2 : parseChars s2.data = none := hpb
              simp [specNormalize, hpa2, hpb2, strPresent, h1, h2]

/-! The claim theorem for the destination matcher. -/

/-- C7: the four concrete matcher examples, and in general `urlsMatch`
is false when either argument is absent (or empty, the other falsy
string) and otherwise compares the normalisations, where normalisation
keeps origin, path (minus a trailing-slash run) and query and falls back
to the raw string on parse failure. -/
theorem urlsMatch_destination_equivalence :
    urlsMatch (some "https://a.com/x/") (some "https://a.com/x") = true ∧
    urlsMatch (some "https://a.com/x#frag") (some "https://a.com/x") = true ∧
    urlsMatch (some "https://a.com?q=1") (some "https://a.com?q=2") = false ∧
    urlsMatch none (some "https://a.com") = false ∧
    ∀ a b : Option String, urlsMatch a b =
      (strPresent a && strPresent b &&
        (specNormalize (a.getD "") == specNormalize (b.getD ""))) :=
  ⟨by decide, by decide, by decide, rfl, urlsMatch_spec⟩

end Rolotabs

namespace Rolotabs

/-! ## Claim C4 — rebuild's greedy first-fit matching -/

theorem urlsMatch_snd_ne_empty {a : Option String} {u : String}
    (h : urlsMatch a (some u) = true) : u ≠ "" := by
  intro he
  subst he
  rcases a with _ | s
  · cases h
  · simp [urlsMatch] at h

/-- Matching the same live entry transfers "matches `u2`" to
"matches `u1`" when that entry matches both. -/
theorem urlsMatch_trans_key {x : Option String} {u1 u2 : String}
    (h1 : urlsMatch x (some u1) = true) (h2 : urlsMatch x (some u2) = true) :
    ∀ y : Option String, urlsMatch y (some u2) = true →
      urlsMatch y (some u1) = true := by
  intro y hy
  rw [urlsMatch_spec] at h1 h2 hy ⊢
  simp only [Bool.and_eq_true, beq_iff_eq] at h1 h2 hy ⊢
  exact ⟨⟨hy.1.1, h1.1.2⟩, hy.2.trans (h2.2.symm.trans h1.2)⟩

theorem tabs_id_inj {tabs : List TabInfo}
    (h : (tabs.map TabInfo.id).Nodup) :
    ∀ {t t' : TabInfo}, t ∈ tabs → t' ∈ tabs → t'.id = t.id → t' = t := by
  induction tabs with
  | nil => intro t t' h1; cases h1
  | cons a l ih =>
    intro t t' h1 h2 he
    rw [List.map_cons, List.nodup_cons] at h
    rcases List.mem_cons.mp h1 with rfl | h1' <;>
      rcases List.mem_cons.mp h2 with rfl | h2'
    · rfl
    · exfalso
      apply h.1
      rw [← he]
      exact List.mem_map.mpr ⟨t', h2', rfl⟩
    · exfalso
      apply h.1
      rw [he]
      exact List.mem_map.mpr ⟨t, h1', rfl⟩
    · exact ih h.2 h1' h2' he

theorem matchLoop_cons (tabs : List TabInfo) (bid burl : String)
    (rest : List (String × String)) (used : List Nat) (acc : List (Nat × String)) :
    matchLoop tabs ((bid, burl) :: rest) used acc =
      if burl = "" then matchLoop tabs rest used acc
      else
        match tabs.find? (fun t => urlsMatch t.url (some burl) && !used.contains t.id) with
        | some t => matchLoop tabs rest (used ++ [t.id]) (mapSet acc t.id bid)
        | none => matchLoop tabs rest used acc := rfl

theorem find?_unique_matcher (tabs : List TabInfo) (t : TabInfo) (u : String)
    (ht : t ∈ tabs) (hm : urlsMatch t.url (some u) = true)
    (huniq : ∀ t' ∈ tabs, urlsMatch t'.url (some u) = true → t' = t)
    (used : List Nat) (hun : t.id ∉ used) :
    tabs.find? (fun t' => urlsMatch t'.url (some u) && !used.contains t'.id)
      = some t := by
  induction tabs with
  | nil => cases ht
  | cons a l ih =>
    by_cases he : a = t
    · subst he
      have hc : used.contains a.id = false := by simpa using hun
      rw [List.find?_cons_of_pos _ (by
        show (urlsMatch a.url (some u) && !used.contains a.id) = true
        rw [hm, hc]
        rfl)]
    · have hp : (urlsMatch a.url (some u) && !used.contains a.id) = false := by
        cases hma : urlsMatch a.url (some u) with
        | false => simp [hma]
        | true =>
          exact absurd (huniq a (List.mem_cons_self a l) hma) he
      rw [List.find?_cons_of_neg _ (fun hcontra => by
        have hc2 : (urlsMatch a.url (some u) && !used.contains a.id) = true := hcontra
        rw [hp] at hc2
        cases hc2)]
      rcases List.mem_cons.mp ht with rfl | ht'
      · exact absurd rfl he
      · exact ih ht' (fun t' ht'' => huniq t' (List.mem_cons_of_mem a ht''))

theorem matchLoop_append (tabs : List TabInfo) (xs ys : List (String × String)) :
    ∀ (used : List Nat) (acc : List (Nat × String)),
      matchLoop tabs (xs ++ ys) used acc =
        matchLoop tabs ys (matchLoop tabs xs used acc).1
          (matchLoop tabs xs used acc).2 := by
  induction xs with
  | nil => intro used acc; rfl
  | cons p xs ih =>
    intro used acc
    rcases p with ⟨bid, burl⟩
    by_cases hbe : burl = ""
    · rw [List.cons_append, matchLoop_cons, if_pos hbe, ih, matchLoop_cons, if_pos hbe]
    · cases hf : tabs.find? (fun t => urlsMatch t.url (some burl) && !used.contains t.id) with
      | some t =>
        rw [List.cons_append, matchLoop_cons, if_neg hbe, hf,
          matchLoop_cons, if_neg hbe, hf]
        exact ih (used ++ [t.id]) (mapSet acc t.id bid)
      | none =>
        rw [List.cons_append, matchLoop_cons, if_neg hbe, hf,
          matchLoop_cons, if_neg hbe, hf]
        exact ih used acc

theorem matchLoop_preserves (tabs : List TabInfo) :
    ∀ (seg : List (String × String)) (used : List Nat) (acc : List (Nat × String)),
      (∀ k ∈ acc.map Prod.fst, k ∈ used) →
      (∃ ext, (matchLoop tabs seg used acc).2 = acc ++ ext ∧
        ∀ pr ∈ ext, pr.2 ∈ seg.map Prod.fst ∧ pr.1 ∉ used) ∧
      (∀ k ∈ used, k ∈ (matchLoop tabs seg used acc).1) ∧
      (∀ k ∈ (matchLoop tabs seg used acc).2.map Prod.fst,
        k ∈ (matchLoop tabs seg used acc).1) := by
  intro seg
  induction seg with
  | nil =>
    intro used acc hk
    exact ⟨⟨[], (List.append_nil acc).symm, fun pr hpr => absurd hpr (List.not_mem_nil pr)⟩,
      fun k hk' => hk', hk⟩
  | cons p rest ih =>
    intro used acc hk
    rcases p with ⟨bid, burl⟩
    by_cases hbe : burl = ""
    · have hstep : matchLoop tabs ((bid, burl) :: rest) used acc
          = matchLoop tabs rest used acc := by
        rw [matchLoop_cons, if_pos hbe]
      rw [hstep]
      obtain ⟨⟨ext, hext, hextP⟩, hmono, hkeys⟩ := ih used acc hk
      exact ⟨⟨ext, hext, fun pr hpr =>
        ⟨List.mem_cons_of_mem _ ((hextP pr hpr).1), (hextP pr hpr).2⟩⟩, hmono, hkeys⟩
    · cases hf : tabs.find? (fun t => urlsMatch t.url (some burl) && !used.contains t.id) with
      | none =>
        have hstep : matchLoop tabs ((bid, burl) :: rest) used acc
            = matchLoop tabs rest used acc := by
          rw [matchLoop_cons, if_neg hbe, hf]
        rw [hstep]
        obtain ⟨⟨ext, hext, hextP⟩, hmono, hkeys⟩ := ih used acc hk
        exact ⟨⟨ext, hext, fun pr hpr =>
          ⟨List.mem_cons_of_mem _ ((hextP pr hpr).1), (hextP pr hpr).2⟩⟩, hmono, hkeys⟩
      | some t' =>
        have hcond := List.find?_some hf
        simp only [Bool.and_eq_true, Bool.not_eq_true'] at hcond
        have hun : t'.id ∉ used := by simpa using hcond.2
        have hstep : matchLoop tabs ((bid, burl) :: rest) used acc
            = matchLoop tabs rest (used ++ [t'.id]) (mapSet acc t'.id bid) := by
          rw [matchLoop_cons, if_neg hbe, hf]
        have hkeyfree : (acc.any fun p => p.1 = t'.id) = false := by
          cases hc : acc.any fun p => p.1 = t'.id with
          | false => rfl
          | true =>
            exfalso
            rcases List.any_eq_true.mp hc with ⟨q, hq, hqk⟩
            exact hun (hk t'.id (List.mem_map.mpr ⟨q, hq,
              of_decide_eq_true hqk⟩))
        have hset : mapSet acc t'.id bid = acc ++ [(t'.id, bid)] :=
          mapSet_eq_of_any_false hkeyfree
        rw [hstep, hset]
        have hk' : ∀ k ∈ (acc ++ [(t'.id, bid)]).map Prod.fst, k ∈ used ++ [t'.id] := by
          intro k hkm
          rw [List.map_append, List.mem_append] at hkm
          rcases hkm with hkm | hkm
          · exact List.mem_append_left _ (hk k hkm)
          · rcases List.mem_singleton.mp hkm with rfl
            exact List.mem_append_right _ (List.mem_singleton_self _)
        obtain ⟨⟨ext, hext, hextP⟩, hmono, hkeys⟩ := ih (used ++ [t'.id]) (acc ++ [(t'.id, bid)]) hk'
        refine ⟨⟨(t'.id, bid) :: ext, ?_, ?_⟩, ?_, hkeys⟩
        · rw [hext, List.append_assoc]
          rfl
        · intro pr hpr
          rcases List.mem_cons.mp hpr with rfl | hpr'
          · exact ⟨List.mem_cons_self _ _, hun⟩
          · exact ⟨List.mem_cons_of_mem _ ((hextP pr hpr').1),
              fun hm => (hextP pr hpr').2 (List.mem_append_left _ hm)⟩
        · intro k hkm
          exact hmono k (List.mem_append_left _ hkm)

theorem matchLoop_tid_not_used (tabs : List TabInfo) (t : TabInfo)
    (hids : (tabs.map TabInfo.id).Nodup) (ht : t ∈ tabs) :
    ∀ (seg : List (String × String)) (used : List Nat) (acc : List (Nat × String)),
      (∀ p ∈ seg, urlsMatch t.url (some p.2) = false) →
      t.id ∉ used →
      t.id ∉ (matchLoop tabs seg used acc).1 := by
  intro seg
  induction seg with
  | nil => intro used acc _ hun; exact hun
  | cons p rest ih =>
    intro used acc hseg hun
    rcases p with ⟨bid, burl⟩
    by_cases hbe : burl = ""
    · have hstep : matchLoop tabs ((bid, burl) :: rest) used acc
          = matchLoop tabs rest used acc := by
        rw [matchLoop_cons, if_pos hbe]
      rw [hstep]
      exact ih used acc (fun q hq => hseg q (List.mem_cons_of_mem _ hq)) hun
    · cases hf : tabs.find? (fun t => urlsMatch t.url (some burl) && !used.contains t.id) with
      | none =>
        have hstep : matchLoop tabs ((bid, burl) :: rest) used acc
            = matchLoop tabs rest used acc := by
          rw [matchLoop_cons, if_neg hbe, hf]
        rw [hstep]
        exact ih used acc (fun q hq => hseg q (List.mem_cons_of_mem _ hq)) hun
      | some t' =>
        have hcond := List.find?_some hf
        simp only [Bool.and_eq_true, Bool.not_eq_true'] at hcond
        have ht' := List.mem_of_find?_eq_some hf
        have hne : t'.id ≠ t.id := by
          intro he
          have := tabs_id_inj hids ht ht' he
          rw [this] at hcond
          rw [hseg (bid, burl) (List.mem_cons_self _ _)] at hcond
          cases hcond.1
        have hstep : matchLoop tabs ((bid, burl) :: rest) used acc
            = matchLoop tabs rest (used ++ [t'.id]) (mapSet acc t'.id bid) := by
          rw [matchLoop_cons, if_neg hbe, hf]
        rw [hstep]
        refine ih (used ++ [t'.id]) (mapSet acc t'.id bid)
          (fun q hq => hseg q (List.mem_cons_of_mem _ hq)) ?_
        intro hm
        rw [List.mem_append] at hm
        rcases hm with hm | hm
        · exact hun hm
        · exact hne (List.mem_singleton.mp hm).symm

end Rolotabs

namespace Rolotabs

/-- C4: rebuild's greedy matching is first-fit in tree order.  When the
flattened tree splits as `A ++ (i1,u1) :: B ++ (i2,u2) :: C` with both
`u1` and `u2` matching tab `t`, no other flat bookmark matching `t`, and
`t` the only tab matching that destination, the rebuilt index associates
`t` with `i1` (the earlier entry) and leaves `i2` unassociated. -/
theorem rebuild_first_fit
    (s : IndexState) (tree : List BookmarkNode) (tabs : List TabInfo)
    (pinnedIds : List String) (rootFolderId : String)
    (A B C : List (String × String)) (i1 u1 i2 u2 : String) (t : TabInfo)
    (hflat : flatForest tree = A ++ (i1, u1) :: (B ++ (i2, u2) :: C))
    (hnd : ((flatForest tree).map Prod.fst).Nodup)
    (htabs : (tabs.map TabInfo.id).Nodup)
    (ht : t ∈ tabs)
    (hm1 : urlsMatch t.url (some u1) = true)
    (hm2 : urlsMatch t.url (some u2) = true)
    (hother : ∀ p ∈ A ++ (B ++ C), urlsMatch t.url (some p.2) = false)
    (huniq : ∀ t' ∈ tabs, urlsMatch t'.url (some u1) = true → t' = t) :
    mapGet (rebuild s tree tabs pinnedIds rootFolderId).tabToBookmarkId t.id
      = some i1 ∧
    ∀ pr ∈ (rebuild s tree tabs pinnedIds rootFolderId).tabToBookmarkId,
      pr.2 ≠ i2 := by
  have hmapEq : (rebuild s tree tabs pinnedIds rootFolderId).tabToBookmarkId
      = (matchLoop tabs (flatForest tree) [] []).2 := rfl
  rw [hmapEq, hflat]
  rw [hflat] at hnd
  simp only [List.map_append, List.map_cons] at hnd
  obtain ⟨hndA, hndR, hdisjA⟩ := List.nodup_append.mp hnd
  rw [List.nodup_cons] at hndR
  obtain ⟨hi1notin, hndR2⟩ := hndR
  obtain ⟨hndB, hndR3, hdisjB⟩ := List.nodup_append.mp hndR2
  rw [List.nodup_cons] at hndR3
  obtain ⟨hi2notinC, hndC⟩ := hndR3
  have hi2A : i2 ∉ A.map Prod.fst := fun hm =>
    hdisjA hm (List.mem_cons_of_mem _
      (List.mem_append_right _ (List.mem_cons_self _ _)))
  have hi2i1 : i1 ≠ i2 := fun e =>
    hi1notin (e ▸ List.mem_append_right _ (List.mem_cons_self _ _))
  have hi2B : i2 ∉ B.map Prod.fst := fun hm => hdisjB hm (List.mem_cons_self _ _)
  -- stage A: the bookmarks before i1 never consume t
  rw [matchLoop_append]
  obtain ⟨⟨extA, hA2, hExtA⟩, _hAmono, hAkeys⟩ :=
    matchLoop_preserves tabs A [] []
      (by intro k hk; exact absurd hk (by simp))
  have htA : t.id ∉ (matchLoop tabs A [] []).1 :=
    matchLoop_tid_not_used tabs t htabs ht A [] []
      (fun p hp => hother p (List.mem_append_left _ hp)) (by simp)
  -- step i1: the unique matching tab t is free and is consumed
  have hne1 : ¬(u1 = "") := urlsMatch_snd_ne_empty hm1
  have hfind1 := find?_unique_matcher tabs t u1 ht hm1 huniq
    (matchLoop tabs A [] []).1 htA
  have hchain1 : matchLoop tabs ((i1, u1) :: (B ++ (i2, u2) :: C))
        (matchLoop tabs A [] []).1 (matchLoop tabs A [] []).2
      = matchLoop tabs (B ++ (i2, u2) :: C)
          ((matchLoop tabs A [] []).1 ++ [t.id])
          (mapSet (matchLoop tabs A [] []).2 t.id i1) := by
    rw [matchLoop_cons, if_neg hne1, hfind1]
  rw [hchain1]
  have hset1 : mapSet (matchLoop tabs A [] []).2 t.id i1
      = (matchLoop tabs A [] []).2 ++ [(t.id, i1)] := by
    refine mapSet_eq_of_any_false ?_
    cases hc : (matchLoop tabs A [] []).2.any (fun p => p.1 = t.id) with
    | false => rfl
    | true =>
      exfalso
      rcases List.any_eq_true.mp hc with ⟨q, hq, hqk⟩
      exact htA (hAkeys t.id (List.mem_map.mpr ⟨q, hq, of_decide_eq_true hqk⟩))
  rw [hset1, matchLoop_append]
  -- stage B
  have hkB : ∀ k ∈ ((matchLoop tabs A [] []).2 ++ [(t.id, i1)]).map Prod.fst,
      k ∈ (matchLoop tabs A [] []).1 ++ [t.id] := by
    intro k hkm
    rw [List.map_append, List.mem_append] at hkm
    rcases hkm with hkm | hkm
    · exact List.mem_append_left _ (hAkeys k hkm)
    · rcases List.mem_singleton.mp hkm with rfl
      exact List.mem_append_right _ (List.mem_singleton_self _)
  obtain ⟨⟨extB, hB2, hExtB⟩, hBmono, hBkeys⟩ :=
    matchLoop_preserves tabs B ((matchLoop tabs A [] []).1 ++ [t.id])
      ((matchLoop tabs A [] []).2 ++ [(t.id, i1)]) hkB
  -- step i2: every matching tab is t, and t is already consumed
  have hne2 : ¬(u2 = "") := urlsMatch_snd_ne_empty hm2
  have htid_inB : t.id ∈ (matchLoop tabs B ((matchLoop tabs A [] []).1 ++ [t.id])
      ((matchLoop tabs A [] []).2 ++ [(t.id, i1)])).1 :=
    hBmono t.id (List.mem_append_right _ (List.mem_singleton_self _))
  have hfind2 : tabs.find? (fun t' => urlsMatch t'.url (some u2) &&
      !(matchLoop tabs B ((matchLoop tabs A [] []).1 ++ [t.id])
        ((matchLoop tabs A [] []).2 ++ [(t.id, i1)])).1.contains t'.id) = none := by
    rw [List.find?_eq_none]
    intro t' ht' hcontra
    have hc2 : (urlsMatch t'.url (some u2) &&
        !(matchLoop tabs B ((matchLoop tabs A [] []).1 ++ [t.id])
          ((matchLoop tabs A [] []).2 ++ [(t.id, i1)])).1.contains t'.id) = true := hcontra
    rw [Bool.and_eq_true] at hc2
    have het : t' = t := huniq t' ht' (urlsMatch_trans_key hm1 hm2 t'.url hc2.1)
    subst het
    rw [Bool.not_eq_true'] at hc2
    have hnmem : t'.id ∉ (matchLoop tabs B ((matchLoop tabs A [] []).1 ++ [t'.id])
        ((matchLoop tabs A [] []).2 ++ [(t'.id, i1)])).1 := by
      simpa using hc2.2
    exact hnmem htid_inB
  have hchain2 : matchLoop tabs ((i2, u2) :: C)
        (matchLoop tabs B ((matchLoop tabs A [] []).1 ++ [t.id])
          ((matchLoop tabs A [] []).2 ++ [(t.id, i1)])).1
        (matchLoop tabs B ((matchLoop tabs A [] []).1 ++ [t.id])
          ((matchLoop tabs A [] []).2 ++ [(t.id, i1)])).2
      = matchLoop tabs C
          (matchLoop tabs B ((matchLoop tabs A [] []).1 ++ [t.id])
            ((matchLoop tabs A [] []).2 ++ [(t.id, i1)])).1
          (matchLoop tabs B ((matchLoop tabs A [] []).1 ++ [t.id])
            ((matchLoop tabs A [] []).2 ++ [(t.id, i1)])).2 := by
    rw [matchLoop_cons, if_neg hne2, hfind2]
  rw [hchain2]
  -- stage C
  obtain ⟨⟨extC, hC2, hExtC⟩, _hCmono, _hCkeys⟩ :=
    matchLoop_preserves tabs C
      (matchLoop tabs B ((matchLoop tabs A [] []).1 ++ [t.id])
        ((matchLoop tabs A [] []).2 ++ [(t.id, i1)])).1
      (matchLoop tabs B ((matchLoop tabs A [] []).1 ++ [t.id])
        ((matchLoop tabs A [] []).2 ++ [(t.id, i1)])).2 hBkeys
  have hgetA : mapGet (matchLoop tabs A [] []).2 t.id = none :=
    mapGet_eq_none.mpr (fun p hp e =>
      htA (hAkeys t.id (e ▸ List.mem_map.mpr ⟨p, hp, rfl⟩)))
  have hget1 : mapGet ((matchLoop tabs A [] []).2 ++ [(t.id, i1)]) t.id
      = some i1 := by
    rw [mapGet_append, hgetA]
    simp [mapGet_cons]
  constructor
  · rw [hC2, hB2]
    have hmid : mapGet (((matchLoop tabs A [] []).2 ++ [(t.id, i1)]) ++ extB) t.id
        = some i1 := by
      rw [mapGet_append, hget1]
      rfl
    rw [mapGet_append, hmid]
    rfl
  · intro pr hpr
    rw [hC2] at hpr
    rcases List.mem_append.mp hpr with hpr | hprC
    · rw [hB2] at hpr
      rcases List.mem_append.mp hpr with hpr | hprB
      · rcases List.mem_append.mp hpr with hprA | hpr1
        · rw [hA2] at hprA
          simp only [List.nil_append] at hprA
          have hmemA := (hExtA pr hprA).1
          intro e
          exact hi2A (e ▸ hmemA)
        · rcases List.mem_singleton.mp hpr1 with rfl
          intro e
          exact hi2i1 e
      · have hmemB := (hExtB pr hprB).1
        intro e
        exact hi2B (e ▸ hmemB)
    · have hmemC := (hExtC pr hprC).1
      intro e
      exact hi2notinC (e ▸ hmemC)

end Rolotabs

namespace Rolotabs

/-- Witness tree for C4: two bookmarks, tree-order `bm1` before `bm2`,
sharing the destination "https://a.com". -/
def witnessC4Tree : List BookmarkNode :=
  [.mk "2" "Other Bookmarks" none none none
    (some [.mk "bm1" "A" (some "https://a.com") (some "2") (some 0) none,
           .mk "bm2" "B" (some "https://a.com") (some "2") (some 1) none])]

/-- Witness for C4 at a concrete input: the single matching tab is
associated with `bm1` (first in tree order) and `bm2` stays free. -/
theorem rebuild_first_fit_witness :
    mapGet (rebuild emptyIndex witnessC4Tree
        [⟨1, some "https://a.com", none, none⟩] [] "2").tabToBookmarkId 1
      = some "bm1" ∧
    ∀ pr ∈ (rebuild emptyIndex witnessC4Tree
        [⟨1, some "https://a.com", none, none⟩] [] "2").tabToBookmarkId,
      pr.2 ≠ "bm2" :=
  rebuild_first_fit emptyIndex witnessC4Tree
    [⟨1, some "https://a.com", none, none⟩] [] "2"
    [] [] [] "bm1" "https://a.com" "bm2" "https://a.com"
    ⟨1, some "https://a.com", none, none⟩
    (by decide) (by decide) (by decide) (by decide)
    (by decide) (by decide) (by decide) (by decide)

end Rolotabs

namespace Rolotabs

/-! ## Claim C1 — the bijection invariant of the association map -/

/-- The bijection invariant on the tab↔bookmark association map: no tab
id appears in two entries (the keys are duplicate-free, as in a JS
`Map`) and no bookmark id is the value of two entries. -/
def TabMapOk (m : List (Nat × String)) : Prop :=
  (m.map Prod.fst).Nodup ∧ ∀ p ∈ m, ∀ q ∈ m, p.2 = q.2 → p.1 = q.1

theorem tabMapOk_nil : TabMapOk [] :=
  ⟨List.nodup_nil, fun p hp => absurd hp (List.not_mem_nil p)⟩

theorem tabMapOk_delete {m : List (Nat × String)} (h : TabMapOk m) (k : Nat) :
    TabMapOk (mapDelete m k) :=
  ⟨keys_mapDelete_nodup h.1, fun p hp q hq he =>
    h.2 p (mem_mapDelete.mp hp).1 q (mem_mapDelete.mp hq).1 he⟩

/-- Setting a key to a value nobody else holds keeps the map bijective. -/
theorem tabMapOk_set_fresh {m : List (Nat × String)} {k : Nat} {v : String}
    (h : TabMapOk m) (hv : ∀ p ∈ m, p.2 ≠ v) : TabMapOk (mapSet m k v) := by
  refine ⟨keys_mapSet_nodup h.1, ?_⟩
  intro p hp q hq he
  rcases mem_mapSet.mp hp with rfl | ⟨hpm, _⟩ <;>
    rcases mem_mapSet.mp hq with h2 | ⟨hqm, _⟩
  · rw [h2]
  · exact absurd he.symm (hv q hqm)
  · rw [h2] at he
    exact absurd he (hv p hpm)
  · exact h.2 p hpm q hqm he

/-- The association map after `associate`: delete the entry holding the
bookmark, if any, then set the tab's entry. -/
theorem associate_map (s : IndexState) (b : String) (t : Nat)
    (tab : Option TabInfo) :
    (associate s b t tab).tabToBookmarkId =
      mapSet (match getTabId s.tabToBookmarkId b with
              | some oldTabId => mapDelete s.tabToBookmarkId oldTabId
              | none => s.tabToBookmarkId) t b := by
  simp only [associate]
  cases h1 : mapGet s.tabToBookmarkId t with
  | none =>
    dsimp only
    cases h2 : getTabId s.tabToBookmarkId b <;> rfl
  | some old =>
    dsimp only
    by_cases ho : old = b
    · rw [if_neg (not_not_intro ho)]
      cases h2 : getTabId s.tabToBookmarkId b <;> rfl
    · rw [if_pos ho]
      dsimp only
      cases h2 : getTabId s.tabToBookmarkId b <;> rfl

/-- `associate` first erases any entry holding the bookmark, so the final
`mapSet` writes a fresh value: the invariant is preserved. -/
theorem associate_tabMapOk (s : IndexState) (b : String) (t : Nat)
    (tab : Option TabInfo) (h : TabMapOk s.tabToBookmarkId) :
    TabMapOk (associate s b t tab).tabToBookmarkId := by
  rw [associate_map]
  cases h2 : getTabId s.tabToBookmarkId b with
  | none => exact tabMapOk_set_fresh h (getTabId_eq_none.mp h2)
  | some oldT =>
    refine tabMapOk_set_fresh (tabMapOk_delete h oldT) ?_
    intro p hp he
    rcases mem_mapDelete.mp hp with ⟨hpm, hpk⟩
    exact hpk (h.2 p hpm (oldT, b) (getTabId_eq_some_mem h2) he)

end Rolotabs

namespace Rolotabs

theorem dissociate_map (s : IndexState) (b : String) :
    (dissociate s b).tabToBookmarkId =
      match getTabId s.tabToBookmarkId b with
      | some tabId => mapDelete s.tabToBookmarkId tabId
      | none => s.tabToBookmarkId := by
  simp only [dissociate]
  cases h2 : getTabId s.tabToBookmarkId b <;> rfl

theorem dissociate_tabMapOk (s : IndexState) (b : String)
    (h : TabMapOk s.tabToBookmarkId) :
    TabMapOk (dissociate s b).tabToBookmarkId := by
  rw [dissociate_map]
  cases getTabId s.tabToBookmarkId b with
  | none => exact h
  | some tid => exact tabMapOk_delete h tid

theorem dissociateTab_tabMapOk (s : IndexState) (t : Nat)
    (h : TabMapOk s.tabToBookmarkId) :
    TabMapOk (dissociateTab s t).tabToBookmarkId := by
  unfold dissociateTab
  cases mapGet s.tabToBookmarkId t with
  | none => exact h
  | some b => exact dissociate_tabMapOk s b h

theorem tryCandidates_tabMapOk (s : IndexState) (t : Nat) (tab : Option TabInfo)
    (h : TabMapOk s.tabToBookmarkId) :
    ∀ cands, TabMapOk (tryCandidates s t tab cands).1.tabToBookmarkId := by
  intro cands
  induction cands with
  | nil => exact h
  | cons bid rest ih =>
    show TabMapOk (match mapGet s.byId bid with
      | some bm =>
        if bm.isLoaded then tryCandidates s t tab rest
        else (associate s bid t tab, some bid)
      | none => tryCandidates s t tab rest).1.tabToBookmarkId
    cases mapGet s.byId bid with
    | none => exact ih
    | some bm =>
      dsimp only
      cases hl : bm.isLoaded with
      | false => exact associate_tabMapOk s bid t tab h
      | true => exact ih

theorem tryAssociateByUrl_tabMapOk (s : IndexState) (t : Nat) (url : String)
    (tab : Option TabInfo) (h : TabMapOk s.tabToBookmarkId) :
    TabMapOk (tryAssociateByUrl s t url tab).1.tabToBookmarkId := by
  unfold tryAssociateByUrl
  cases normalizeUrl url with
  | none => exact h
  | some n =>
    dsimp only
    by_cases hn : n = ""
    · rw [if_pos hn]
      exact h
    · rw [if_neg hn]
      cases mapGet s.urlToBookmarkIds n with
      | none => exact h
      | some cands => exact tryCandidates_tabMapOk s t tab h cands

theorem handleTabNavigation_tabMapOk (s : IndexState) (t : Nat)
    (newUrl : String) (tab : Option TabInfo) (h : TabMapOk s.tabToBookmarkId) :
    TabMapOk (handleTabNavigation s t newUrl tab).tabToBookmarkId := by
  cases h1 : mapGet s.tabToBookmarkId t with
  | none =>
    have he : handleTabNavigation s t newUrl tab
        = (tryAssociateByUrl s t newUrl tab).1 := by
      simp only [handleTabNavigation, h1]
    rw [he]
    exact tryAssociateByUrl_tabMapOk s t newUrl tab h
  | some c =>
    rw [handleTabNavigation_unfold s t newUrl tab c h1]
    have hT : TabMapOk (navTemp s t c).tabToBookmarkId := tabMapOk_delete h t
    cases h2 : (tryAssociateByUrl (navTemp s t c) t newUrl tab).2 with
    | some bid => exact tryAssociateByUrl_tabMapOk (navTemp s t c) t newUrl tab hT
    | none =>
      have hst := tryAssociate_state_of_none (navTemp s t c) t newUrl tab h2
      show TabMapOk (navRestore
        (tryAssociateByUrl (navTemp s t c) t newUrl tab).1 t c newUrl tab).tabToBookmarkId
      rw [hst]
      show TabMapOk (mapSet (navTemp s t c).tabToBookmarkId t c)
      refine tabMapOk_set_fresh hT ?_
      intro p hp he
      rcases mem_mapDelete.mp hp with ⟨hpm, hpk⟩
      exact hpk (h.2 p hpm (t, c) (mapGet_eq_some_mem h1) he)

end Rolotabs

namespace Rolotabs

theorem tabMapOk_congr {m m' : List (Nat × String)} (e : m = m')
    (h : TabMapOk m) : TabMapOk m' := e ▸ h

theorem unpin_map (s : IndexState) (b : String) :
    (unpin s b).tabToBookmarkId = s.tabToBookmarkId := by
  unfold unpin
  split <;> rfl

theorem addBookmark_tabMapOk (s : IndexState) (node : BookmarkNode)
    (tabs : List TabInfo) (h : TabMapOk s.tabToBookmarkId) :
    TabMapOk (addBookmark s node tabs).tabToBookmarkId := by
  simp only [addBookmark]
  repeat' split
  all_goals first
    | exact h
    | exact associate_tabMapOk _ _ _ _ h

theorem removeBookmark_tabMapOk (s : IndexState) (b : String)
    (h : TabMapOk s.tabToBookmarkId) :
    TabMapOk (removeBookmark s b).tabToBookmarkId := by
  simp only [removeBookmark]
  repeat' split
  all_goals first
    | exact h
    | exact tabMapOk_congr (unpin_map _ _).symm h
    | exact tabMapOk_congr (unpin_map _ _).symm (tabMapOk_delete h _)

theorem updateBookmarkUrl_tabMapOk (s : IndexState) (b : String)
    (newUrl : String) (tabs : List TabInfo) (h : TabMapOk s.tabToBookmarkId) :
    TabMapOk (updateBookmarkUrl s b newUrl tabs).tabToBookmarkId := by
  simp only [updateBookmarkUrl]
  repeat' split
  all_goals first
    | exact h
    | exact tabMapOk_delete h _
    | exact associate_tabMapOk _ _ _ _ h
    | exact associate_tabMapOk _ _ _ _ (tabMapOk_delete h _)

theorem pin_tabMapOk (s : IndexState) (b : String)
    (h : TabMapOk s.tabToBookmarkId) : TabMapOk (pin s b).tabToBookmarkId := by
  unfold pin
  split <;> exact h

theorem unpin_tabMapOk (s : IndexState) (b : String)
    (h : TabMapOk s.tabToBookmarkId) : TabMapOk (unpin s b).tabToBookmarkId :=
  tabMapOk_congr (unpin_map s b).symm h

theorem reorderPinned_tabMapOk (s : IndexState) (b : String) (i : Int)
    (h : TabMapOk s.tabToBookmarkId) :
    TabMapOk (reorderPinned s b i).tabToBookmarkId := by
  unfold reorderPinned
  split <;> exact h

theorem cleanupPinned_tabMapOk (s : IndexState)
    (h : TabMapOk s.tabToBookmarkId) :
    TabMapOk (cleanupPinned s).1.tabToBookmarkId := h

theorem setActiveTab_tabMapOk (s : IndexState) (t : Option Nat)
    (h : TabMapOk s.tabToBookmarkId) :
    TabMapOk (setActiveTab s t).tabToBookmarkId := by
  simp only [setActiveTab]
  repeat' split
  all_goals exact h

theorem getState_tabMapOk (s : IndexState) (a : Option Nat)
    (tabs : List TabInfo) (h : TabMapOk s.tabToBookmarkId) :
    TabMapOk (getState s a tabs).1.tabToBookmarkId :=
  setActiveTab_tabMapOk s a h

/-- Every public operation preserves the bijection invariant. -/
theorem applyOp_tabMapOk (s : IndexState) (op : IndexOp)
    (h : TabMapOk s.tabToBookmarkId) :
    TabMapOk (applyOp s op).tabToBookmarkId := by
  cases op with
  | associate b t tab => exact associate_tabMapOk s b t tab h
  | dissociate b => exact dissociate_tabMapOk s b h
  | dissociateTab t => exact dissociateTab_tabMapOk s t h
  | tryAssociateByUrl t url tab => exact tryAssociateByUrl_tabMapOk s t url tab h
  | handleTabNavigation t url tab => exact handleTabNavigation_tabMapOk s t url tab h
  | addBookmark node tabs => exact addBookmark_tabMapOk s node tabs h
  | removeBookmark b => exact removeBookmark_tabMapOk s b h
  | updateBookmarkUrl b url tabs => exact updateBookmarkUrl_tabMapOk s b url tabs h
  | pin b => exact pin_tabMapOk s b h
  | unpin b => exact unpin_tabMapOk s b h
  | reorderPinned b i => exact reorderPinned_tabMapOk s b i h
  | cleanupPinned => exact cleanupPinned_tabMapOk s h
  | getState a tabs => exact getState_tabMapOk s a tabs h

theorem applyOps_tabMapOk (s : IndexState) (ops : List IndexOp)
    (h : TabMapOk s.tabToBookmarkId) :
    TabMapOk (applyOps s ops).tabToBookmarkId := by
  induction ops generalizing s with
  | nil => exact h
  | cons op rest ih => exact ih (applyOp s op) (applyOp_tabMapOk s op h)

end Rolotabs

namespace Rolotabs

/-- The greedy matching loop keeps its accumulator bijective: each step
consumes a fresh tab id and a bookmark id not seen before (given
duplicate-free bookmark ids in the remaining segment). -/
theorem matchLoop_acc_ok (tabs : List TabInfo) :
    ∀ (seg : List (String × String)) (used : List Nat)
      (acc : List (Nat × String)),
      (seg.map Prod.fst).Nodup →
      (∀ k ∈ acc.map Prod.fst, k ∈ used) →
      TabMapOk acc →
      (∀ p ∈ acc, p.2 ∉ seg.map Prod.fst) →
      TabMapOk (matchLoop tabs seg used acc).2 := by
  intro seg
  induction seg with
  | nil => intro used acc _ _ hok _; exact hok
  | cons p rest ih =>
    intro used acc hnd hku hok hdisj
    rcases p with ⟨bid, burl⟩
    rw [List.map_cons, List.nodup_cons] at hnd
    by_cases hbe : burl = ""
    · rw [matchLoop_cons, if_pos hbe]
      exact ih used acc hnd.2 hku hok
        (fun p hp hm => hdisj p hp (List.mem_cons_of_mem _ hm))
    · cases hf : tabs.find?
          (fun t => urlsMatch t.url (some burl) && !used.contains t.id) with
      | none =>
        rw [matchLoop_cons, if_neg hbe, hf]
        exact ih used acc hnd.2 hku hok
          (fun p hp hm => hdisj p hp (List.mem_cons_of_mem _ hm))
      | some t =>
        rw [matchLoop_cons, if_neg hbe, hf]
        dsimp only
        have hcond0 := List.find?_some hf
        have hcond : (urlsMatch t.url (some burl) && !used.contains t.id) = true :=
          hcond0
        rw [Bool.and_eq_true] at hcond
        have htid : t.id ∉ used := by
          have h2 := hcond.2
          rw [Bool.not_eq_true'] at h2
          simpa using h2
        have hkeys : t.id ∉ acc.map Prod.fst := fun hm => htid (hku t.id hm)
        have hset : mapSet acc t.id bid = acc ++ [(t.id, bid)] := by
          refine mapSet_eq_of_any_false ?_
          cases hc : acc.any (fun p => p.1 = t.id) with
          | false => rfl
          | true =>
            exfalso
            rcases List.any_eq_true.mp hc with ⟨q, hq, hqk⟩
            exact hkeys (List.mem_map.mpr ⟨q, hq, of_decide_eq_true hqk⟩)
        rw [hset]
        refine ih (used ++ [t.id]) (acc ++ [(t.id, bid)]) hnd.2 ?_ ?_ ?_
        · intro k hk
          rw [List.map_append, List.mem_append] at hk
          rcases hk with hk | hk
          · exact List.mem_append_left _ (hku k hk)
          · rcases List.mem_singleton.mp hk with rfl
            exact List.mem_append_right _ (List.mem_singleton_self _)
        · constructor
          · rw [List.map_append]
            refine List.Nodup.append hok.1 (List.nodup_singleton _) ?_
            intro a ha hb
            rcases List.mem_singleton.mp hb with rfl
            exact hkeys ha
          · intro p hp q hq he
            rcases List.mem_append.mp hp with hp | hp1 <;>
              rcases List.mem_append.mp hq with hq | hq1
            · exact hok.2 p hp q hq he
            · rcases List.mem_singleton.mp hq1 with rfl
              exact absurd (he ▸ List.mem_cons_self bid (rest.map Prod.fst))
                (hdisj p hp)
            · rcases List.mem_singleton.mp hp1 with rfl
              exact absurd (he ▸ List.mem_cons_self bid (rest.map Prod.fst))
                (hdisj q hq)
            · rw [List.mem_singleton.mp hp1, List.mem_singleton.mp hq1]
        · intro p hp
          rcases List.mem_append.mp hp with hp | hp1
          · exact fun hm => hdisj p hp (List.mem_cons_of_mem _ hm)
          · rcases List.mem_singleton.mp hp1 with rfl
            exact hnd.1

/-- A rebuild over a tree with duplicate-free bookmark ids establishes
the bijection invariant. -/
theorem rebuild_tabMapOk (s : IndexState) (tree : List BookmarkNode)
    (tabs : List TabInfo) (pinnedIds : List String) (rootFolderId : String)
    (hnd : ((flatForest tree).map Prod.fst).Nodup) :
    TabMapOk (rebuild s tree tabs pinnedIds rootFolderId).tabToBookmarkId := by
  have he : (rebuild s tree tabs pinnedIds rootFolderId).tabToBookmarkId
      = (matchLoop tabs (flatForest tree) [] []).2 := rfl
  rw [he]
  exact matchLoop_acc_ok tabs (flatForest tree) [] [] hnd
    (fun k hk => absurd hk (by simp))
    tabMapOk_nil
    (fun p hp => absurd hp (List.not_mem_nil p))

end Rolotabs

namespace Rolotabs

/-- C1: bijection invariant of the association. In every state reachable
from a rebuild (over a tree with duplicate-free bookmark ids, as Chrome
guarantees) by any sequence of public operations, no tab id is associated
with two bookmark ids and no bookmark id is associated with two tab
ids. -/
theorem association_bijective (s : IndexState) (tree : List BookmarkNode)
    (tabs : List TabInfo) (pinnedIds : List String) (rootFolderId : String)
    (ops : List IndexOp)
    (hnd : ((flatForest tree).map Prod.fst).Nodup) :
    TabMapOk (applyOps (rebuild s tree tabs pinnedIds rootFolderId)
      ops).tabToBookmarkId :=
  applyOps_tabMapOk _ ops
    (rebuild_tabMapOk s tree tabs pinnedIds rootFolderId hnd)

/-- Witness tree for C1. -/
def witnessC1Tree : List BookmarkNode :=
  [.mk "2" "Other Bookmarks" none none none
    (some [.mk "bm1" "A" (some "https://a.com") (some "2") (some 0) none,
           .mk "bm2" "B" (some "https://b.com") (some "2") (some 1) none])]

/-- Witness for C1 at a concrete input: a rebuild with one matching tab
followed by a navigation and an association keeps the map bijective. -/
theorem association_bijective_witness :
    TabMapOk (applyOps (rebuild emptyIndex witnessC1Tree
        [⟨1, some "https://a.com", none, none⟩] [] "2")
      [.handleTabNavigation 1 "https://b.com" none,
       .associate "bm1" 1 none]).tabToBookmarkId :=
  association_bijective emptyIndex witnessC1Tree
    [⟨1, some "https://a.com", none, none⟩] [] "2"
    [.handleTabNavigation 1 "https://b.com" none,
     .associate "bm1" 1 none] (by decide)

end Rolotabs
